import Mathlib

/-!
# Verification of the go-basic repository against its specification

Shallow embedding of the relevant Go functions (data structures, algorithms,
design patterns) as Lean definitions, together with theorems settling the
claims C1..C10.  Go `int` is modelled as `Int` (indices that can go negative)
or `Nat` (loop counters that stay non-negative); Go slices of `int` are
modelled as `List Int`; Go `(value, error)` returns are modelled as products
with `Option String` errors.
-/

set_option maxHeartbeats 1000000
set_option linter.unnecessarySimpa false
set_option linter.unnecessarySeqFocus false
set_option linter.unreachableTactic false
set_option linter.unusedTactic false

namespace GoBasic

/-! ## Stack (src/02-data-structures/stack.go)

`Stack` wraps a slice; the last element of the slice is the top. -/

structure Stack where
  items : List Int
deriving Repr, DecidableEq

/-- Go `Push`: `s.items = append(s.items, item)`. -/
def Stack.Push (s : Stack) (item : Int) : Stack :=
  { items := s.items ++ [item] }

/-- Go `Pop`: on empty returns `(0, error)`, otherwise removes and returns the
last item.  The mutated receiver is returned as the third component. -/
def Stack.Pop (s : Stack) : Int × Option String × Stack :=
  if s.items.length = 0 then
    (0, some "stack is empty", s)
  else
    let index := s.items.length - 1
    let item := s.items.getD index 0
    (item, none, { items := s.items.take index })

/-- Go `Peek`: top item without removal, error on empty. -/
def Stack.Peek (s : Stack) : Int × Option String :=
  if s.items.length = 0 then (0, some "stack is empty")
  else (s.items.getD (s.items.length - 1) 0, none)

/-- Go `Size`: `len(s.items)`. -/
def Stack.Size (s : Stack) : Int := s.items.length

/-! ## Queue (src/unnamed/part_004)

`Queue` wraps a slice; the first element of the slice is the front. -/

structure Queue where
  items : List Int
deriving Repr, DecidableEq

/-- Go `Enqueue`: `q.items = append(q.items, item)`. -/
def Queue.Enqueue (q : Queue) (item : Int) : Queue :=
  { items := q.items ++ [item] }

/-- Go `Dequeue`: on empty returns `(0, error)`, otherwise removes and returns
the first item (`q.items = q.items[1:]`). -/
def Queue.Dequeue (q : Queue) : Int × Option String × Queue :=
  if q.items.length = 0 then
    (0, some "queue is empty", q)
  else
    (q.items.getD 0 0, none, { items := q.items.drop 1 })

/-- Go `Peek`: first item without removal, error on empty. -/
def Queue.Peek (q : Queue) : Int × Option String :=
  if q.items.length = 0 then (0, some "queue is empty")
  else (q.items.getD 0 0, none)

/-- Go `Size`: `len(q.items)`. -/
def Queue.Size (q : Queue) : Int := q.items.length

/-- `main`-style driver: push each value of `vs` in order. -/
def Stack.pushAll (s : Stack) (vs : List Int) : Stack :=
  vs.foldl Stack.Push s

/-- Pop `n` times, collecting the `(value, error)` pairs in order. -/
def Stack.popTimes (s : Stack) : Nat → List (Int × Option String) × Stack
  | 0 => ([], s)
  | n + 1 =>
    let r := s.Pop
    let rest := r.2.2.popTimes n
    ((r.1, r.2.1) :: rest.1, rest.2)

/-- Enqueue each value of `vs` in order. -/
def Queue.enqueueAll (q : Queue) (vs : List Int) : Queue :=
  vs.foldl Queue.Enqueue q

/-- Dequeue `n` times, collecting the `(value, error)` pairs in order. -/
def Queue.dequeueTimes (q : Queue) : Nat → List (Int × Option String) × Queue
  | 0 => ([], q)
  | n + 1 =>
    let r := q.Dequeue
    let rest := r.2.2.dequeueTimes n
    ((r.1, r.2.1) :: rest.1, rest.2)

theorem Stack.pushAll_items (s : Stack) (vs : List Int) :
    (s.pushAll vs).items = s.items ++ vs := by
  induction vs generalizing s with
  | nil => simp [Stack.pushAll]
  | cons v vs ih =>
    simp [Stack.pushAll] at ih ⊢
    rw [ih]
    simp [Stack.Push]

theorem Queue.enqueueAll_items (q : Queue) (vs : List Int) :
    (q.enqueueAll vs).items = q.items ++ vs := by
  induction vs generalizing q with
  | nil => simp [Queue.enqueueAll]
  | cons v vs ih =>
    simp [Queue.enqueueAll] at ih ⊢
    rw [ih]
    simp [Queue.Enqueue]

theorem Stack.pop_append_singleton (l : List Int) (a : Int) :
    (Stack.mk (l ++ [a])).Pop = (a, none, Stack.mk l) := by
  have h1 : (l ++ [a]).getD l.length 0 = a := by
    simp [List.getD]
  have h2 : (l ++ [a]).take l.length = l := by
    rw [List.take_append_eq_append_take]
    simp
  simp [Stack.Pop, h1, h2]

theorem Stack.popTimes_pushAll (l : List Int) :
    (Stack.mk l).popTimes l.length
      = (l.reverse.map (fun v => (v, (none : Option String))), Stack.mk []) := by
  induction l using List.reverseRecOn with
  | nil => simp [Stack.popTimes]
  | append_singleton l a ih =>
    have hlen : (l ++ [a]).length = l.length + 1 := by simp
    rw [hlen]
    simp only [Stack.popTimes, Stack.pop_append_singleton, ih]
    simp

theorem Queue.dequeueTimes_all (l : List Int) :
    (Queue.mk l).dequeueTimes l.length
      = (l.map (fun v => (v, (none : Option String))), Queue.mk []) := by
  induction l with
  | nil => simp [Queue.dequeueTimes]
  | cons a l ih =>
    simp only [List.length_cons, Queue.dequeueTimes, Queue.Dequeue]
    simp [ih]

/-- **C4.** Popping or peeking the empty stack, and dequeuing or peeking the
empty queue, each return a non-nil error (the value is the zero sentinel), the
container is returned unchanged, and its `Size()` is `0`. -/
theorem claim_c4_empty_container_errors :
    ((Stack.mk []).Pop.2.1 ≠ none ∧ (Stack.mk []).Pop.2.2 = Stack.mk [] ∧
      (Stack.mk []).Pop.2.2.Size = 0 ∧ (Stack.mk []).Peek.2 ≠ none) ∧
    ((Queue.mk []).Dequeue.2.1 ≠ none ∧ (Queue.mk []).Dequeue.2.2 = Queue.mk [] ∧
      (Queue.mk []).Dequeue.2.2.Size = 0 ∧ (Queue.mk []).Peek.2 ≠ none) := by
  refine ⟨⟨?_, ?_, ?_, ?_⟩, ⟨?_, ?_, ?_, ?_⟩⟩ <;>
    simp [Stack.Pop, Stack.Peek, Stack.Size, Queue.Dequeue, Queue.Peek, Queue.Size]

/-- **C5.** Pushing `v1..vN` onto an empty stack and popping `N` times yields
`vN..v1` with no errors and empties the stack; enqueuing `v1..vN` onto an empty
queue and dequeuing `N` times yields `v1..vN` with no errors and empties the
queue. -/
theorem claim_c5_lifo_fifo_order (vs : List Int) :
    ((Stack.mk []).pushAll vs).popTimes vs.length
        = (vs.reverse.map (fun v => (v, (none : Option String))), Stack.mk []) ∧
    ((Queue.mk []).enqueueAll vs).dequeueTimes vs.length
        = (vs.map (fun v => (v, (none : Option String))), Queue.mk []) := by
  constructor
  · have h : ((Stack.mk []).pushAll vs) = Stack.mk vs := by
      have := Stack.pushAll_items (Stack.mk []) vs
      cases hs : (Stack.mk []).pushAll vs
      simp_all
    rw [h, Stack.popTimes_pushAll]
  · have h : ((Queue.mk []).enqueueAll vs) = Queue.mk vs := by
      have := Queue.enqueueAll_items (Queue.mk []) vs
      cases hs : (Queue.mk []).enqueueAll vs
      simp_all
    rw [h, Queue.dequeueTimes_all]

/-! ## Rune-conversion string formatting (C8)

src/04-design-patterns/structural/facade.go, behavioral/chain_of_responsibility.go
and src/unnamed/part_002 build strings with Go's `string(rune(x))`, which
produces the single character whose code point is `x` (U+FFFD for invalid code
points), not the decimal representation of `x`. -/

/-- Go `string(rune(n))` for an integer `n`.  The conversion `rune(n)` first
truncates the 64-bit `int` to `rune = int32`, wrapping modulo `2^32` into
`[-2^31, 2^31)` (two's complement); the resulting code point is rendered as
its one-character string, or as U+FFFD when it is not a valid code point
(negative, a surrogate, or above U+10FFFF). -/
def goRuneString (n : Int) : String :=
  let r := (n + 2147483648) % 4294967296 - 2147483648
  if (0 ≤ r ∧ r < 55296) ∨ (57343 < r ∧ r ≤ 1114111) then
    String.mk [Char.ofNat r.toNat]
  else
    String.mk [Char.ofNat 65533]

/-- Go `HardDrive.Read` (facade.go line 35). -/
def HardDrive.Read (position : String) (size : Int) : String :=
  "HardDrive: Reading data of size " ++ goRuneString size ++ " from " ++ position

/-- Go `CreditCardStrategy.Pay` (chain_of_responsibility.go line 150).  The Go
parameter is a `float64`; `rune(amount)` truncates it toward zero, so we model
the method at integral amounts, with the already-truncated value as argument. -/
def CreditCardStrategy.Pay (amount : Int) : String :=
  "Paid " ++ goRuneString amount ++ " using Credit Card"

/-- Go `PayPalStrategy.Pay` (chain_of_responsibility.go line 167), modelled at
integral amounts like `CreditCardStrategy.Pay`. -/
def PayPalStrategy.Pay (amount : Int) : String :=
  "Paid " ++ goRuneString amount ++ " using PayPal"

/-- Go `BitcoinStrategy.Pay` (chain_of_responsibility.go line 182), modelled at
integral amounts like `CreditCardStrategy.Pay`. -/
def BitcoinStrategy.Pay (amount : Int) : String :=
  "Paid " ++ goRuneString amount ++ " using Bitcoin"

/-- Go `TemperatureDisplay.display` (src/unnamed/part_002 line 75), modelled at
integral temperatures (the Go parameter is a `float64`). -/
def TemperatureDisplay.display (name : String) (temperature : Int) : String :=
  "Display " ++ name ++ " shows temperature: " ++ goRuneString temperature

/-- **C8.** `HardDrive.Read` embeds the single character whose code point is
`size` (Go `string(rune(size))`, with the `int → int32` wrap of the rune
conversion) — not the decimal representation of `size` — and the
`Pay`/`display` methods do the same with their amount: at `size = 53` (the
code point of the digit `'5'`) the output contains `"5"` rather than `"53"`,
at amount `65` the strategies print `"A"`, and at `size = 2^32 + 65` the rune
conversion wraps to `65` and prints `"A"` as well. -/
theorem claim_c8_rune_conversion_formatting :
    (∀ position size, HardDrive.Read position size
        = "HardDrive: Reading data of size " ++ goRuneString size ++ " from " ++ position) ∧
    HardDrive.Read "0x00" 53 = "HardDrive: Reading data of size 5 from 0x00" ∧
    HardDrive.Read "0x00" 53 ≠ "HardDrive: Reading data of size 53 from 0x00" ∧
    HardDrive.Read "0x00" 4294967361 = "HardDrive: Reading data of size A from 0x00" ∧
    HardDrive.Read "0x00" 2147483648 = "HardDrive: Reading data of size � from 0x00" ∧
    CreditCardStrategy.Pay 65 = "Paid A using Credit Card" ∧
    CreditCardStrategy.Pay 65 ≠ "Paid 65 using Credit Card" ∧
    PayPalStrategy.Pay 65 = "Paid A using PayPal" ∧
    BitcoinStrategy.Pay 65 = "Paid A using Bitcoin" ∧
    TemperatureDisplay.display "D1" 65 = "Display D1 shows temperature: A" := by
  refine ⟨fun _ _ => rfl, ?_, ?_, ?_, ?_, ?_, ?_, ?_, ?_, ?_⟩ <;> decide

/-! ## Searching algorithms (src/unnamed/part_003) -/

/-- Read `l[i]` for a Go `int` index `i`; the Go programs only evaluate this
where `i` is in range, and the out-of-range result `0` is never relied upon. -/
def getL (l : List Int) (i : Int) : Int :=
  if 0 ≤ i then l.getD i.toNat 0 else 0

/-- Go `LinearSearch` (part_003 lines 27-35): scan with the running index,
return the index of the first hit or `-1`. -/
def linearAux (l : List Int) (target : Int) (i : Nat) : Int :=
  match l with
  | [] => -1
  | x :: rest => if x = target then i else linearAux rest target (i + 1)

/-- Go `LinearSearch`. -/
def LinearSearch (arr : List Int) (target : Int) : Int :=
  linearAux arr target 0

/-- The `for left <= right` loop of Go `BinarySearch` (part_003 lines 49-65). -/
def binarySearchLoop (arr : List Int) (target : Int) (left right : Int) : Int :=
  if h : left ≤ right then
    let mid := left + (right - left) / 2
    if getL arr mid = target then mid
    else if getL arr mid < target then binarySearchLoop arr target (mid + 1) right
    else binarySearchLoop arr target left (mid - 1)
  else -1
termination_by (right + 1 - left).toNat
decreasing_by
  · omega
  · omega

/-- Go `BinarySearch`: `left := 0`, `right := len(arr) - 1`. -/
def BinarySearch (arr : List Int) (target : Int) : Int :=
  binarySearchLoop arr target 0 (arr.length - 1)

/-- Bounds-checked slice read: Go `arr[i]` panics (`index out of range`) when
`i` is negative or `≥ len(arr)`. -/
def getE (l : List Int) (i : Int) : Except String Int :=
  if 0 ≤ i ∧ i < (l.length : Int) then .ok (getL l i) else .error "index out of range"

/-- The block-finding loop of Go `JumpSearch` (part_003 lines 87-93):
`for minStep := min(step, n)-1; arr[minStep] < target; minStep = min(step, n)-1`.
Returns `.inl (-1)` for the early `return -1`, `.inr (prev, step)` when the
loop exits normally.  The fuel only bounds the number of iterations; running
out of fuel is reported as a distinct error. -/
def jumpBlockLoop (arr : List Int) (target : Int) (n : Nat) (prev step : Int) :
    Nat → Except String (Int ⊕ Int × Int)
  | 0 => .error "fuel exhausted"
  | fuel + 1 =>
    match getE arr (min step (n : Int) - 1) with
    | .error e => .error e
    | .ok v =>
      if v < target then
        let prev' := step
        let step' := step + (Nat.sqrt n : Int)
        if prev' ≥ (n : Int) then .ok (.inl (-1))
        else jumpBlockLoop arr target n prev' step' fuel
      else .ok (.inr (prev, step))

/-- The linear scan of Go `JumpSearch` (part_003 lines 96-108): advance `prev`
while `arr[prev] < target`, with the early `return -1` at the block boundary,
then the final `arr[prev] == target` check. -/
def jumpLinearLoop (arr : List Int) (target : Int) (n : Nat) (step prev : Int) :
    Nat → Except String Int
  | 0 => .error "fuel exhausted"
  | fuel + 1 =>
    match getE arr prev with
    | .error e => .error e
    | .ok v =>
      if v < target then
        let prev' := prev + 1
        if prev' = min step (n : Int) then .ok (-1)
        else jumpLinearLoop arr target n step prev' fuel
      else
        if v = target then .ok prev else .ok (-1)

/-- Go `JumpSearch` (part_003 lines 80-109).  `int(math.Sqrt(float64(n)))` is
modelled as `Nat.sqrt n` (exact for the sizes a Go `int` can hold).  A Go
out-of-bounds slice access (a panic) is the `"index out of range"` error. -/
def JumpSearch (arr : List Int) (target : Int) : Except String Int :=
  let n := arr.length
  let step := (Nat.sqrt n : Int)
  match jumpBlockLoop arr target n 0 step (n + 2) with
  | .error e => .error e
  | .ok (.inl r) => .ok r
  | .ok (.inr (prev, step')) => jumpLinearLoop arr target n step' prev (n + 2)

/-- **C10.** On the empty array, `JumpSearch`'s first block probe reads
`arr[min(step, n) - 1] = arr[-1]`, an out-of-bounds access that panics in Go,
whereas `LinearSearch` and `BinarySearch` return `-1`. -/
theorem claim_c10_jumpsearch_empty_panics :
    (∀ target, JumpSearch [] target = .error "index out of range") ∧
    (∀ target, LinearSearch [] target = -1) ∧
    (∀ target, BinarySearch [] target = -1) := by
  refine ⟨fun target => ?_, fun target => rfl, fun target => ?_⟩
  · rfl
  · rw [BinarySearch, binarySearchLoop]
    norm_num

theorem getL_eq_getElem (l : List Int) (i : Int) (h0 : 0 ≤ i) (h1 : i < l.length) :
    getL l i = l[i.toNat] := by
  rw [getL, if_pos h0, List.getD_eq_getElem l 0 (by omega)]

theorem sorted_getL {l : List Int} (h : List.Sorted (· ≤ ·) l) :
    ∀ i j : Int, 0 ≤ i → i ≤ j → j < l.length → getL l i ≤ getL l j := by
  intro i j hi hij hj
  rw [getL_eq_getElem l i hi (by omega), getL_eq_getElem l j (by omega) hj]
  rcases eq_or_lt_of_le hij with rfl | hlt
  · exact le_refl _
  · exact List.pairwise_iff_get.mp h ⟨i.toNat, by omega⟩ ⟨j.toNat, by omega⟩ (by simp; omega)

theorem mem_iff_getL (l : List Int) (x : Int) :
    x ∈ l ↔ ∃ k : Int, 0 ≤ k ∧ k < l.length ∧ getL l k = x := by
  rw [List.mem_iff_getElem]
  constructor
  · rintro ⟨n, hn, rfl⟩
    exact ⟨n, by omega, by omega, by rw [getL_eq_getElem _ _ (by omega) (by omega)]; simp⟩
  · rintro ⟨k, hk0, hk1, rfl⟩
    exact ⟨k.toNat, by omega, by rw [getL_eq_getElem _ _ hk0 hk1]⟩

theorem binarySearchLoop_correct (arr : List Int) (target : Int)
    (hs : List.Sorted (· ≤ ·) arr) :
    ∀ left right : Int, 0 ≤ left → right < arr.length →
    (∀ k : Int, 0 ≤ k → k < left → getL arr k ≠ target) →
    (∀ k : Int, right < k → k < arr.length → getL arr k ≠ target) →
    (binarySearchLoop arr target left right = -1 ∧
        ∀ k : Int, 0 ≤ k → k < arr.length → getL arr k ≠ target) ∨
    (0 ≤ binarySearchLoop arr target left right ∧
        binarySearchLoop arr target left right < arr.length ∧
        getL arr (binarySearchLoop arr target left right) = target) := by
  suffices H : ∀ (n : Nat) (left right : Int), (right + 1 - left).toNat = n →
      0 ≤ left → right < arr.length →
      (∀ k : Int, 0 ≤ k → k < left → getL arr k ≠ target) →
      (∀ k : Int, right < k → k < arr.length → getL arr k ≠ target) →
      (binarySearchLoop arr target left right = -1 ∧
          ∀ k : Int, 0 ≤ k → k < arr.length → getL arr k ≠ target) ∨
      (0 ≤ binarySearchLoop arr target left right ∧
          binarySearchLoop arr target left right < arr.length ∧
          getL arr (binarySearchLoop arr target left right) = target) by
    exact fun left right => H _ left right rfl
  intro n
  induction n using Nat.strong_induction_on with
  | _ n ih =>
  intro left right hm h0 h1 hexl hexr
  rw [binarySearchLoop]
  by_cases hlr : left ≤ right
  · rw [dif_pos hlr]
    set mid := left + (right - left) / 2 with hmid
    have hmid1 : left ≤ mid := by omega
    have hmid2 : mid ≤ right := by omega
    by_cases heq : getL arr mid = target
    · rw [if_pos heq]
      right
      exact ⟨by omega, by omega, heq⟩
    · rw [if_neg heq]
      by_cases hlt : getL arr mid < target
      · rw [if_pos hlt]
        refine ih ((right + 1 - (mid + 1)).toNat) (by omega) (mid + 1) right rfl
          (by omega) h1 ?_ hexr
        intro k hk0 hk1
        intro hcon
        have : getL arr k ≤ getL arr mid := sorted_getL hs k mid hk0 (by omega) (by omega)
        omega
      · rw [if_neg hlt]
        refine ih ((mid - 1 + 1 - left).toNat) (by omega) left (mid - 1) rfl
          h0 (by omega) hexl ?_
        intro k hk0 hk1
        intro hcon
        have : getL arr mid ≤ getL arr k := sorted_getL hs mid k (by omega) (by omega) hk1
        omega
  · rw [dif_neg hlr]
    left
    refine ⟨rfl, fun k hk0 hk1 => ?_⟩
    by_cases hkl : k < left
    · exact hexl k hk0 hkl
    · exact hexr k (by omega) hk1

/-- **C2.** On a sorted array, `BinarySearch(arr, target)` returns an index `i`
with `arr[i] == target` when the target occurs in the array, and `-1` when it
does not. -/
theorem claim_c2_binarysearch (arr : List Int) (target : Int)
    (hs : List.Sorted (· ≤ ·) arr) :
    (target ∈ arr → 0 ≤ BinarySearch arr target ∧
        BinarySearch arr target < arr.length ∧
        getL arr (BinarySearch arr target) = target) ∧
    (target ∉ arr → BinarySearch arr target = -1) := by
  have h := binarySearchLoop_correct arr target hs 0 ((arr.length : Int) - 1)
    le_rfl (by omega) (by omega) (by omega)
  rw [BinarySearch]
  rcases h with ⟨hres, hnone⟩ | ⟨hr0, hr1, hr2⟩
  · constructor
    · intro hmem
      rcases (mem_iff_getL arr target).mp hmem with ⟨k, hk0, hk1, hk2⟩
      exact absurd hk2 (hnone k hk0 hk1)
    · intro _
      exact hres
  · constructor
    · intro _
      exact ⟨hr0, hr1, hr2⟩
    · intro hmem
      exact absurd ((mem_iff_getL arr target).mpr ⟨_, hr0, hr1, hr2⟩) hmem

/-- Witness for C2 at the concrete sorted array `[1, 3, 5]` and target `3`. -/
theorem claim_c2_binarysearch_witness :
    List.Sorted (· ≤ ·) [(1 : Int), 3, 5] ∧
    (((3 : Int) ∈ [(1 : Int), 3, 5] → 0 ≤ BinarySearch [1, 3, 5] 3 ∧
        BinarySearch [1, 3, 5] 3 < ([(1 : Int), 3, 5] : List Int).length ∧
        getL [1, 3, 5] (BinarySearch [1, 3, 5] 3) = 3) ∧
      ((3 : Int) ∉ [(1 : Int), 3, 5] → BinarySearch [1, 3, 5] 3 = -1)) :=
  ⟨by decide, claim_c2_binarysearch [1, 3, 5] 3 (by decide)⟩

/-! ## KMP string matching (src/03-algorithms, string-algorithms file)

The two `for` loops are embedded with explicit fuel; exhausting the fuel is
the `none` result, so a `some` result is exactly what the Go loops compute.
The loop measure `2*i - length` (resp. `2*i - j`) increases every iteration,
so `2*len + 1` iterations always suffice; the concrete claim C7 only needs the
computed value. -/

/-- The `for i < len(pattern)` loop of Go `computeLPSArray`. -/
def computeLPSAux (p : List Char) (lps : List Nat) (lenPS i : Nat) :
    Nat → Option (List Nat)
  | 0 => none
  | fuel + 1 =>
    if i < p.length then
      if p.getD i ' ' = p.getD lenPS ' ' then
        computeLPSAux p (lps.set i (lenPS + 1)) (lenPS + 1) (i + 1) fuel
      else
        if lenPS ≠ 0 then
          computeLPSAux p lps (lps.getD (lenPS - 1) 0) i fuel
        else
          computeLPSAux p (lps.set i 0) 0 (i + 1) fuel
    else some lps

/-- Go `computeLPSArray`: `lps := make([]int, len(pattern))`, `length := 0`,
`i := 1`. -/
def computeLPSArray (p : List Char) : Option (List Nat) :=
  computeLPSAux p (List.replicate p.length 0) 0 1 (2 * p.length + 1)

/-- The `for i < len(text)` loop of Go `KMPSearch`.  `i'`/`j'` are the values
of `i`/`j` after the first `if` of the loop body. -/
def kmpAux (text pat : List Char) (lps : List Nat) (i j : Nat)
    (founds : List Nat) : Nat → Option (List Nat)
  | 0 => none
  | fuel + 1 =>
    if i < text.length then
      let i' := if pat.getD j ' ' = text.getD i ' ' then i + 1 else i
      let j' := if pat.getD j ' ' = text.getD i ' ' then j + 1 else j
      if j' = pat.length then
        kmpAux text pat lps i' (lps.getD (j' - 1) 0) (founds ++ [i' - j']) fuel
      else
        if i' < text.length ∧ pat.getD j' ' ' ≠ text.getD i' ' ' then
          if j' ≠ 0 then kmpAux text pat lps i' (lps.getD (j' - 1) 0) founds fuel
          else kmpAux text pat lps (i' + 1) j' founds fuel
        else kmpAux text pat lps i' j' founds fuel
    else some founds

/-- Go `KMPSearch` (lines 210-235 of the string-algorithms file). -/
def KMPSearch (text pattern : String) : Option (List Nat) :=
  match computeLPSArray pattern.toList with
  | none => none
  | some lps =>
    kmpAux text.toList pattern.toList lps 0 0 []
      (2 * text.toList.length + pattern.toList.length + 1)

/-- **C7.** `KMPSearch("AABAACAADAABAAABAA", "AABA")` returns exactly the match
start indices `[0, 9, 13]`. -/
theorem claim_c7_kmp_concrete :
    KMPSearch "AABAACAADAABAAABAA" "AABA" = some [0, 9, 13] := by
  decide

/-! ## Binary search tree (src/02-data-structures/tree.go) -/

/-- A `*TreeNode`: either the Go `nil` pointer or a node with a value and two
child pointers. -/
inductive TreeNode where
  | nil : TreeNode
  | node (value : Int) (left right : TreeNode) : TreeNode
deriving Repr, DecidableEq

/-- Go `insertRecursive` (tree.go lines 55-75): `value < node.Value` goes left,
otherwise (including duplicates) right; a `nil` child is replaced by a fresh
leaf node.  The method is never called on a `nil` receiver in Go; that case is
the identity here. -/
def insertRecursive : TreeNode → Int → TreeNode
  | .nil, _ => .nil
  | .node v l r, value =>
    if value < v then
      match l with
      | .nil => .node v (.node value .nil .nil) r
      | .node lv ll lr => .node v (insertRecursive (.node lv ll lr) value) r
    else
      match r with
      | .nil => .node v l (.node value .nil .nil)
      | .node rv rl rr => .node v l (insertRecursive (.node rv rl rr) value)

/-- A `BinaryTree` holds the root pointer. -/
structure BinaryTree where
  Root : TreeNode
deriving Repr, DecidableEq

/-- Go `Insert` (tree.go lines 43-51): an empty tree gets a fresh root,
otherwise `insertRecursive` runs from the root. -/
def BinaryTree.Insert (t : BinaryTree) (value : Int) : BinaryTree :=
  match t.Root with
  | .nil => ⟨.node value .nil .nil⟩
  | .node v l r => ⟨insertRecursive (.node v l r) value⟩

/-- Build a tree by inserting the values of `vs` in order into an initially
empty `BinaryTree` (the `main` usage pattern). -/
def insertAll (vs : List Int) : BinaryTree :=
  vs.foldl BinaryTree.Insert ⟨.nil⟩

/-- Go `InorderTraversal` (tree.go lines 108-121): left, node, right. -/
def inorderTrav : TreeNode → List Int
  | .nil => []
  | .node v l r => inorderTrav l ++ v :: inorderTrav r

/-- Go `InorderTraversal` on the tree wrapper. -/
def BinaryTree.InorderTraversal (t : BinaryTree) : List Int :=
  inorderTrav t.Root

/-- `p` holds for every value in the tree. -/
def treeAll (p : Int → Bool) : TreeNode → Bool
  | .nil => true
  | .node v l r => p v && treeAll p l && treeAll p r

/-- The BST invariant exactly as claim C3 states it: every value in the left
subtree is strictly less than the node value, which is strictly less than
every value in the right subtree. -/
def isBSTStrict : TreeNode → Bool
  | .nil => true
  | .node v l r =>
    treeAll (fun x => x < v) l && treeAll (fun x => v < x) r &&
      isBSTStrict l && isBSTStrict r

/-- The invariant `insertRecursive` actually maintains: strictly smaller values
on the left, values greater than **or equal to** the node value on the right
(duplicates are routed to the right subtree). -/
def isBSTLoose : TreeNode → Bool
  | .nil => true
  | .node v l r =>
    treeAll (fun x => x < v) l && treeAll (fun x => v ≤ x) r &&
      isBSTLoose l && isBSTLoose r

/-- The common "insert into a child pointer" step of `Insert` and
`insertRecursive`: a `nil` pointer becomes a fresh node, otherwise the
recursion continues. -/
def insertChild (c : TreeNode) (value : Int) : TreeNode :=
  match c with
  | .nil => .node value .nil .nil
  | .node v l r => insertRecursive (.node v l r) value

theorem insertRecursive_node (value v : Int) (l r : TreeNode) :
    insertRecursive (.node v l r) value =
      if value < v then .node v (insertChild l value) r
      else .node v l (insertChild r value) := by
  cases l <;> cases r <;> simp [insertRecursive, insertChild]

theorem Insert_eq_insertChild (t : BinaryTree) (value : Int) :
    t.Insert value = ⟨insertChild t.Root value⟩ := by
  rcases t with ⟨root⟩
  cases root <;> simp [BinaryTree.Insert, insertChild]

theorem treeAll_insertChild {p : Int → Bool} {c : TreeNode} {value : Int}
    (ht : treeAll p c = true) (hv : p value = true) :
    treeAll p (insertChild c value) = true := by
  induction c with
  | nil => simp [insertChild, treeAll, hv]
  | node v l r ihl ihr =>
    simp only [treeAll, Bool.and_eq_true] at ht
    obtain ⟨⟨hpv, hl⟩, hr⟩ := ht
    rw [insertChild, insertRecursive_node]
    by_cases hlt : value < v
    · simp [hlt, treeAll, hpv, hr, ihl hl]
    · simp [hlt, treeAll, hpv, hl, ihr hr]

theorem isBSTLoose_insertChild {c : TreeNode} {value : Int}
    (ht : isBSTLoose c = true) : isBSTLoose (insertChild c value) = true := by
  induction c with
  | nil => simp [insertChild, isBSTLoose, treeAll]
  | node v l r ihl ihr =>
    simp only [isBSTLoose, Bool.and_eq_true] at ht
    obtain ⟨⟨⟨hal, har⟩, hbl⟩, hbr⟩ := ht
    rw [insertChild, insertRecursive_node]
    by_cases hlt : value < v
    · have h1 : treeAll (fun x => decide (x < v)) (insertChild l value) = true :=
        treeAll_insertChild hal (by simp [hlt])
      simp [hlt, isBSTLoose, h1, har, ihl hbl, hbr]
    · have h1 : treeAll (fun x => decide (v ≤ x)) (insertChild r value) = true :=
        treeAll_insertChild har (by simp; omega)
      simp [hlt, isBSTLoose, hal, h1, hbl, ihr hbr]

theorem isBSTLoose_insert {t : BinaryTree} {value : Int}
    (ht : isBSTLoose t.Root = true) :
    isBSTLoose (t.Insert value).Root = true := by
  rw [Insert_eq_insertChild]
  exact isBSTLoose_insertChild ht

theorem isBSTLoose_insertAll (vs : List Int) :
    isBSTLoose (insertAll vs).Root = true := by
  suffices H : ∀ (vs : List Int) (t : BinaryTree), isBSTLoose t.Root = true →
      isBSTLoose (vs.foldl BinaryTree.Insert t).Root = true by
    exact H vs ⟨.nil⟩ rfl
  intro vs
  induction vs with
  | nil => intro t ht; exact ht
  | cons v vs ih =>
    intro t ht
    exact ih _ (isBSTLoose_insert ht)

/-- **C3 (counterexample).** Inserting `5` twice puts the duplicate in the
right subtree, where it is not strictly greater than the root: the strict BST
invariant of the claim fails for the insertion sequence `[5, 5]`. -/
theorem claim_c3_counterexample :
    isBSTStrict (insertAll [5, 5]).Root = false := by
  decide

/-- **C3 (amended).** For every sequence of `Insert` calls on an initially
empty `BinaryTree`, every node satisfies: values in its left subtree are
strictly less than its value, and its value is less than **or equal to** every
value in its right subtree (duplicates go right). -/
theorem claim_c3_bst_invariant (vs : List Int) :
    isBSTLoose (insertAll vs).Root = true :=
  isBSTLoose_insertAll vs

theorem inorder_insertChild_perm (c : TreeNode) (value : Int) :
    (inorderTrav (insertChild c value)).Perm (value :: inorderTrav c) := by
  induction c with
  | nil => simp [insertChild, inorderTrav]
  | node v l r ihl ihr =>
    rw [insertChild, insertRecursive_node]
    by_cases hlt : value < v
    · rw [if_pos hlt]
      simp only [inorderTrav]
      exact (ihl.append_right (v :: inorderTrav r)).trans (List.Perm.refl _)
    · rw [if_neg hlt]
      simp only [inorderTrav]
      refine List.Perm.trans (List.Perm.append_left (inorderTrav l) ((ihr.cons v))) ?_
      have h : ((inorderTrav l ++ [v]) ++ value :: inorderTrav r).Perm
          (value :: ((inorderTrav l ++ [v]) ++ inorderTrav r)) := List.perm_middle
      simpa using h

theorem treeAll_mem {p : Int → Bool} {t : TreeNode} (h : treeAll p t = true) :
    ∀ x ∈ inorderTrav t, p x = true := by
  induction t with
  | nil => simp [inorderTrav]
  | node v l r ihl ihr =>
    simp only [treeAll, Bool.and_eq_true] at h
    obtain ⟨⟨hpv, hl⟩, hr⟩ := h
    intro x hx
    simp only [inorderTrav, List.mem_append, List.mem_cons] at hx
    rcases hx with hx | rfl | hx
    · exact ihl hl x hx
    · exact hpv
    · exact ihr hr x hx

theorem sorted_inorder {t : TreeNode} (ht : isBSTLoose t = true) :
    List.Sorted (· ≤ ·) (inorderTrav t) := by
  induction t with
  | nil => simp [inorderTrav]
  | node v l r ihl ihr =>
    simp only [isBSTLoose, Bool.and_eq_true] at ht
    obtain ⟨⟨⟨hal, har⟩, hbl⟩, hbr⟩ := ht
    rw [inorderTrav]
    rw [show (List.Sorted (· ≤ ·) (inorderTrav l ++ v :: inorderTrav r)) =
      List.Pairwise (· ≤ ·) (inorderTrav l ++ v :: inorderTrav r) from rfl,
      List.pairwise_append]
    refine ⟨ihl hbl, ?_, ?_⟩
    · rw [List.pairwise_cons]
      refine ⟨fun y hy => ?_, ihr hbr⟩
      have := treeAll_mem har y hy
      simpa using this
    · intro x hx y hy
      have hxv : x < v := by simpa using treeAll_mem hal x hx
      rcases List.mem_cons.mp hy with rfl | hy
      · omega
      · have hvy : v ≤ y := by simpa using treeAll_mem har y hy
        omega

theorem inorder_foldl_perm (vs : List Int) (t : BinaryTree) :
    (inorderTrav (vs.foldl BinaryTree.Insert t).Root).Perm
      (vs ++ inorderTrav t.Root) := by
  induction vs generalizing t with
  | nil => simp
  | cons v vs ih =>
    simp only [List.foldl_cons]
    have h1 := ih (t.Insert v)
    have h2 : (inorderTrav (t.Insert v).Root).Perm (v :: inorderTrav t.Root) := by
      rw [Insert_eq_insertChild]
      exact inorder_insertChild_perm t.Root v
    have h3 := h1.trans (List.Perm.append_left vs h2)
    refine h3.trans ?_
    have h : (vs ++ v :: inorderTrav t.Root).Perm
        (v :: (vs ++ inorderTrav t.Root)) := List.perm_middle
    simpa using h

/-- **C9.** For every insertion sequence (duplicates included, which
`insertRecursive` routes right), `InorderTraversal` of the resulting tree is
non-decreasing and is a permutation of (i.e. has exactly the multiset of) the
inserted values. -/
theorem claim_c9_inorder_sorted_perm (vs : List Int) :
    List.Sorted (· ≤ ·) (insertAll vs).InorderTraversal ∧
    (insertAll vs).InorderTraversal.Perm vs := by
  constructor
  · exact sorted_inorder (isBSTLoose_insertAll vs)
  · have := inorder_foldl_perm vs ⟨.nil⟩
    simpa [insertAll, BinaryTree.InorderTraversal, inorderTrav] using this

/-! ## Sorting algorithms (src/03-algorithms/sorting.go) -/

/-! ### MergeSort

`MergeSort` is functional in Go: it returns a new slice.  `arr[:mid]` and
`arr[mid:]` are `take`/`drop`; the `merge` index loops walk the two sorted
halves front-to-front, which is the structural recursion below. -/

/-- Go `merge` (sorting.go lines 103-122): repeatedly take the smaller head
(`left[i] <= right[j]` prefers the left), then append the leftovers. -/
def mergeGo : List Int → List Int → List Int
  | [], r => r
  | a :: l, [] => a :: l
  | a :: l, b :: r =>
    if a ≤ b then a :: mergeGo l (b :: r)
    else b :: mergeGo (a :: l) r

/-- Go `MergeSort` (sorting.go lines 89-101): split at `len/2`, sort both
halves, merge. -/
def MergeSort (arr : List Int) : List Int :=
  if h : arr.length ≤ 1 then arr
  else
    let mid := arr.length / 2
    mergeGo (MergeSort (arr.take mid)) (MergeSort (arr.drop mid))
termination_by arr.length
decreasing_by
  · simp only [List.length_take]
    omega
  · simp only [List.length_drop]
    omega

theorem mergeGo_perm (l r : List Int) : (mergeGo l r).Perm (l ++ r) := by
  induction l generalizing r with
  | nil => simp [mergeGo]
  | cons a l ihl =>
    induction r with
    | nil => simp [mergeGo]
    | cons b r ihr =>
      rw [mergeGo]
      by_cases hab : a ≤ b
      · rw [if_pos hab]
        exact (ihl (b :: r)).cons a
      · rw [if_neg hab]
        refine List.Perm.trans (ihr.cons b) ?_
        have h : ((a :: l) ++ b :: r).Perm (b :: ((a :: l) ++ r)) :=
          List.perm_middle
        exact h.symm

theorem mergeGo_sorted {l r : List Int} (hl : List.Sorted (· ≤ ·) l)
    (hr : List.Sorted (· ≤ ·) r) : List.Sorted (· ≤ ·) (mergeGo l r) := by
  induction l generalizing r with
  | nil => simpa [mergeGo] using hr
  | cons a l ihl =>
    induction r with
    | nil => simpa [mergeGo] using hl
    | cons b r ihr =>
      rw [mergeGo]
      rw [List.sorted_cons] at hl hr
      obtain ⟨hal, hl'⟩ := hl
      obtain ⟨hbr, hr'⟩ := hr
      by_cases hab : a ≤ b
      · rw [if_pos hab]
        rw [List.sorted_cons]
        refine ⟨?_, ihl hl' (by rw [List.sorted_cons]; exact ⟨hbr, hr'⟩)⟩
        intro y hy
        have hmem := (mergeGo_perm l (b :: r)).mem_iff.mp hy
        simp only [List.mem_append, List.mem_cons] at hmem
        rcases hmem with hy | rfl | hy
        · exact hal y hy
        · exact hab
        · exact le_trans hab (hbr y hy)
      · rw [if_neg hab]
        push_neg at hab
        rw [List.sorted_cons]
        refine ⟨?_, ihr hr'⟩
        intro y hy
        have hmem := (mergeGo_perm (a :: l) r).mem_iff.mp hy
        simp only [List.mem_append, List.mem_cons] at hmem
        rcases hmem with (rfl | hy) | hy
        · omega
        · have := hal y hy
          omega
        · exact hbr y hy

theorem MergeSort_perm (arr : List Int) : (MergeSort arr).Perm arr := by
  suffices H : ∀ (n : Nat) (arr : List Int), arr.length = n → (MergeSort arr).Perm arr by
    exact H _ arr rfl
  intro n
  induction n using Nat.strong_induction_on with
  | _ n ih =>
  intro arr hn
  rw [MergeSort]
  by_cases h : arr.length ≤ 1
  · rw [dif_pos h]
  · rw [dif_neg h]
    have h1 := ih (arr.take (arr.length / 2)).length (by simp; omega) _ rfl
    have h2 := ih (arr.drop (arr.length / 2)).length (by simp; omega) _ rfl
    refine List.Perm.trans (mergeGo_perm _ _) ?_
    refine List.Perm.trans (h1.append h2) ?_
    rw [List.take_append_drop]

theorem MergeSort_sorted (arr : List Int) : List.Sorted (· ≤ ·) (MergeSort arr) := by
  suffices H : ∀ (n : Nat) (arr : List Int), arr.length = n →
      List.Sorted (· ≤ ·) (MergeSort arr) by
    exact H _ arr rfl
  intro n
  induction n using Nat.strong_induction_on with
  | _ n ih =>
  intro arr hn
  rw [MergeSort]
  by_cases h : arr.length ≤ 1
  · rw [dif_pos h]
    match arr, h with
    | [], _ => simp
    | [a], _ => simp
  · rw [dif_neg h]
    exact mergeGo_sorted (ih (arr.take (arr.length / 2)).length (by simp; omega) _ rfl)
      (ih (arr.drop (arr.length / 2)).length (by simp; omega) _ rfl)

/-! ### BubbleSort

The inner `for j := 0; j < n-i-1; j++` loop of Go `BubbleSort` compares the
adjacent pair at the current position and carries the larger element to the
right; `bubblePass bound l` runs exactly `bound` such comparisons from the
front of `l`, returning the updated list and the `swapped` flag.  The outer
loop with its early exit is `bubbleAux`. -/

/-- One inner pass of Go `BubbleSort` (sorting.go lines 30-36), `bound`
comparisons starting at index 0.  In Go `bound = n-i-1 < len(arr)` always, so
the short-list cases never fire there. -/
def bubblePass : Nat → List Int → List Int × Bool
  | 0, l => (l, false)
  | _ + 1, [] => ([], false)
  | _ + 1, [a] => ([a], false)
  | k + 1, a :: b :: t =>
    if b < a then
      let r := bubblePass k (a :: t)
      (b :: r.1, true)
    else
      let r := bubblePass k (b :: t)
      (a :: r.1, r.2)

/-- The outer `for i := 0; i < n-1; i++` loop of Go `BubbleSort`
(sorting.go lines 25-42), with the `if !swapped break` early exit. -/
def bubbleAux (n : Nat) (l : List Int) (i : Nat) : List Int :=
  if i < n - 1 then
    let r := bubblePass (n - i - 1) l
    if r.2 then bubbleAux n r.1 (i + 1) else r.1
  else l
termination_by n - 1 - i

/-- Go `BubbleSort` (sorting.go lines 23-43); the in-place sort is modelled as
returning the final contents of the slice. -/
def BubbleSort (arr : List Int) : List Int :=
  bubbleAux arr.length arr 0

theorem bubblePass_length (k : Nat) (l : List Int) :
    (bubblePass k l).1.length = l.length := by
  induction k generalizing l with
  | zero => rfl
  | succ k ih =>
    match l with
    | [] => rfl
    | [a] => rfl
    | a :: b :: t =>
      rw [bubblePass]
      by_cases h : b < a
      · simp only [if_pos h, List.length_cons]
        rw [ih (a :: t)]
        rfl
      · simp only [if_neg h, List.length_cons]
        rw [ih (b :: t)]
        rfl

theorem bubblePass_perm (k : Nat) (l : List Int) :
    (bubblePass k l).1.Perm l := by
  induction k generalizing l with
  | zero => rfl
  | succ k ih =>
    match l with
    | [] => rfl
    | [a] => rfl
    | a :: b :: t =>
      rw [bubblePass]
      by_cases h : b < a
      · simp only [if_pos h]
        exact ((ih (a :: t)).cons b).trans (List.Perm.swap a b t)
      · simp only [if_neg h]
        exact (ih (b :: t)).cons a

theorem bubblePass_false (k : Nat) (l : List Int)
    (h : (bubblePass k l).2 = false) :
    (bubblePass k l).1 = l ∧ List.Sorted (· ≤ ·) (l.take (k + 1)) := by
  induction k generalizing l with
  | zero =>
    refine ⟨rfl, ?_⟩
    match l with
    | [] => simp
    | a :: t => simp
  | succ k ih =>
    match l with
    | [] => exact ⟨rfl, by simp⟩
    | [a] => exact ⟨rfl, by simp⟩
    | a :: b :: t =>
      rw [bubblePass] at h ⊢
      by_cases hba : b < a
      · rw [if_pos hba] at h
        simp at h
      · rw [if_neg hba] at h ⊢
        simp only at h
        obtain ⟨h1, h2⟩ := ih (b :: t) h
        have h2' := h2
        rw [List.take_succ_cons, List.sorted_cons] at h2'
        refine ⟨by simp [h1], ?_⟩
        rw [List.take_succ_cons, List.sorted_cons]
        refine ⟨?_, h2⟩
        intro y hy
        rw [List.take_succ_cons, List.mem_cons] at hy
        rcases hy with rfl | hy
        · omega
        · have := h2'.1 y hy
          omega

theorem bubblePass_drop (k : Nat) (l : List Int) :
    (bubblePass k l).1.drop (k + 1) = l.drop (k + 1) := by
  induction k generalizing l with
  | zero => rfl
  | succ k ih =>
    match l with
    | [] => rfl
    | [a] => rfl
    | a :: b :: t =>
      rw [bubblePass]
      by_cases h : b < a
      · simp only [if_pos h, List.drop_succ_cons]
        exact ih (a :: t)
      · simp only [if_neg h, List.drop_succ_cons]
        exact ih (b :: t)

theorem take_perm_of_perm_drop_eq {l' l : List Int} {m : Nat} (h : l'.Perm l)
    (hd : l'.drop m = l.drop m) : (l'.take m).Perm (l.take m) := by
  have h1 : (l'.take m ++ l'.drop m).Perm (l.take m ++ l.drop m) := by
    simpa [List.take_append_drop] using h
  rw [hd] at h1
  exact (List.perm_append_right_iff _).mp h1

theorem bubblePass_take_perm (k : Nat) (l : List Int) :
    ((bubblePass k l).1.take (k + 1)).Perm (l.take (k + 1)) :=
  take_perm_of_perm_drop_eq (bubblePass_perm k l) (bubblePass_drop k l)

theorem bubblePass_max (k : Nat) (l : List Int) (hk : k < l.length) :
    ∀ x ∈ (bubblePass k l).1.take (k + 1), x ≤ (bubblePass k l).1.getD k 0 := by
  induction k generalizing l with
  | zero =>
    intro x hx
    match l, hk with
    | a :: t, _ =>
      simp only [bubblePass] at hx ⊢
      simp at hx
      simp [hx]
  | succ k ih =>
    match l with
    | [] => simp at hk
    | [a] => simp at hk
    | a :: b :: t =>
      rw [bubblePass]
      by_cases hba : b < a
      · simp only [if_pos hba]
        have hk' : k < (a :: t).length := by simp at hk ⊢; omega
        intro x hx
        rw [List.take_succ_cons, List.mem_cons] at hx
        have hgd : (b :: (bubblePass k (a :: t)).1).getD (k + 1) 0
            = (bubblePass k (a :: t)).1.getD k 0 := by
          simp [List.getD_cons_succ]
        rw [hgd]
        have hmem_a : a ∈ (bubblePass k (a :: t)).1.take (k + 1) := by
          have : a ∈ (a :: t).take (k + 1) := by
            rw [List.take_succ_cons]
            exact List.mem_cons_self a _
          exact ((bubblePass_take_perm k (a :: t)).mem_iff).mpr this
        rcases hx with rfl | hx
        · exact le_trans (le_of_lt hba) (ih (a :: t) hk' a hmem_a)
        · exact ih (a :: t) hk' x hx
      · simp only [if_neg hba]
        have hk' : k < (b :: t).length := by simp at hk ⊢; omega
        intro x hx
        rw [List.take_succ_cons, List.mem_cons] at hx
        have hgd : (a :: (bubblePass k (b :: t)).1).getD (k + 1) 0
            = (bubblePass k (b :: t)).1.getD k 0 := by
          simp [List.getD_cons_succ]
        rw [hgd]
        have hmem_b : b ∈ (bubblePass k (b :: t)).1.take (k + 1) := by
          have : b ∈ (b :: t).take (k + 1) := by
            rw [List.take_succ_cons]
            exact List.mem_cons_self b _
          exact ((bubblePass_take_perm k (b :: t)).mem_iff).mpr this
        rcases hx with rfl | hx
        · exact le_trans (by omega) (ih (b :: t) hk' b hmem_b)
        · exact ih (b :: t) hk' x hx

theorem sorted_assemble {l : List Int} {m : Nat}
    (h1 : List.Sorted (· ≤ ·) (l.take m)) (h2 : List.Sorted (· ≤ ·) (l.drop m))
    (h3 : ∀ x ∈ l.take m, ∀ y ∈ l.drop m, x ≤ y) : List.Sorted (· ≤ ·) l := by
  have hsplit := List.take_append_drop m l
  rw [← hsplit]
  exact List.pairwise_append.mpr ⟨h1, h2, h3⟩

theorem sorted_take_one (l : List Int) : List.Sorted (· ≤ ·) (l.take 1) := by
  cases l <;> simp

theorem bubbleAux_sorted_perm (n : Nat) :
    ∀ (i : Nat) (l : List Int), l.length = n →
    List.Sorted (· ≤ ·) (l.drop (n - i)) →
    (∀ x ∈ l.take (n - i), ∀ y ∈ l.drop (n - i), x ≤ y) →
    List.Sorted (· ≤ ·) (bubbleAux n l i) ∧ (bubbleAux n l i).Perm l := by
  suffices H : ∀ (gas i : Nat) (l : List Int), n - 1 - i = gas → l.length = n →
      List.Sorted (· ≤ ·) (l.drop (n - i)) →
      (∀ x ∈ l.take (n - i), ∀ y ∈ l.drop (n - i), x ≤ y) →
      List.Sorted (· ≤ ·) (bubbleAux n l i) ∧ (bubbleAux n l i).Perm l by
    exact fun i l => H _ i l rfl
  intro gas
  induction gas using Nat.strong_induction_on with
  | _ gas ih =>
  intro i l hgas hlen hdropsorted hdom
  rw [bubbleAux]
  by_cases hi : i < n - 1
  · rw [if_pos hi]
    have hk1 : n - i - 1 + 1 = n - i := by omega
    have hkl : n - i - 1 < l.length := by omega
    rcases hps : bubblePass (n - i - 1) l with ⟨l', s⟩
    have hrlen : l'.length = n := by
      have := bubblePass_length (n - i - 1) l
      rw [hps] at this
      rw [← hlen]
      exact this
    have hrdrop : l'.drop (n - i) = l.drop (n - i) := by
      have := bubblePass_drop (n - i - 1) l
      rw [hps, hk1] at this
      exact this
    have hrtake : (l'.take (n - i)).Perm (l.take (n - i)) := by
      have := bubblePass_take_perm (n - i - 1) l
      rw [hps, hk1] at this
      exact this
    have hrperm : l'.Perm l := by
      have := bubblePass_perm (n - i - 1) l
      rw [hps] at this
      exact this
    have hmax : ∀ x ∈ l'.take (n - i), x ≤ l'.getD (n - i - 1) 0 := by
      have := bubblePass_max (n - i - 1) l hkl
      rw [hps, hk1] at this
      exact this
    cases s with
    | false =>
      have hfalse := bubblePass_false (n - i - 1) l (by rw [hps])
      obtain ⟨h1, h2⟩ := hfalse
      rw [hps] at h1
      rw [hk1] at h2
      simp only [Bool.false_eq_true, if_false]
      have h1' : l' = l := h1
      rw [h1']
      exact ⟨sorted_assemble h2 hdropsorted hdom, List.Perm.refl _⟩
    | true =>
      simp only [if_true]
      have hklen' : n - i - 1 < l'.length := by omega
      have hgetd : l'.getD (n - i - 1) 0 = l'[n - i - 1] :=
        List.getD_eq_getElem l' 0 hklen'
      have hlast_mem : l'[n - i - 1] ∈ l'.take (n - i) := by
        have hbt : n - i - 1 < (l'.take (n - i)).length := by
          simp [hrlen]
          omega
        have hmem0 : (l'.take (n - i))[n - i - 1] ∈ l'.take (n - i) :=
          List.getElem_mem hbt
        rw [List.getElem_take] at hmem0
        exact hmem0
      have hlast_dom : ∀ y ∈ l.drop (n - i), l'[n - i - 1] ≤ y := by
        intro y hy
        exact hdom _ (hrtake.mem_iff.mp hlast_mem) y hy
      have hdrop' : l'.drop (n - (i + 1)) = l'[n - i - 1] :: l.drop (n - i) := by
        have hni : n - (i + 1) = n - i - 1 := by omega
        rw [hni, List.drop_eq_getElem_cons hklen', ← hrdrop, hk1]
      have hsorted' : List.Sorted (· ≤ ·) (l'.drop (n - (i + 1))) := by
        rw [hdrop', List.sorted_cons]
        exact ⟨hlast_dom, hdropsorted⟩
      have hdom' : ∀ x ∈ l'.take (n - (i + 1)), ∀ y ∈ l'.drop (n - (i + 1)), x ≤ y := by
        intro x hx y hy
        have hni : n - (i + 1) = n - i - 1 := by omega
        rw [hni] at hx
        have hx1 : x ∈ l'.take (n - i) := by
          have hsub : l'.take (n - i - 1) = (l'.take (n - i)).take (n - i - 1) := by
            rw [List.take_take]
            congr 1
            omega
          rw [hsub] at hx
          exact List.mem_of_mem_take hx
        rw [hdrop'] at hy
        rcases List.mem_cons.mp hy with rfl | hy
        · rw [← hgetd]
          exact hmax x hx1
        · exact hdom _ (hrtake.mem_iff.mp hx1) y hy
      obtain ⟨hS, hP⟩ := ih (n - 1 - (i + 1)) (by omega) (i + 1) l' rfl hrlen hsorted' hdom'
      exact ⟨hS, hP.trans hrperm⟩
  · rw [if_neg hi]
    refine ⟨?_, List.Perm.refl _⟩
    by_cases hn : n - i = 0
    · rw [hn, List.drop_zero] at hdropsorted
      exact hdropsorted
    · have hni : n - i = 1 := by omega
      rw [hni] at hdropsorted hdom
      exact sorted_assemble (sorted_take_one l) hdropsorted hdom

theorem BubbleSort_sorted (arr : List Int) : List.Sorted (· ≤ ·) (BubbleSort arr) := by
  have h := bubbleAux_sorted_perm arr.length 0 arr rfl
    (by simp) (by simp)
  exact h.1

theorem BubbleSort_perm (arr : List Int) : (BubbleSort arr).Perm arr := by
  have h := bubbleAux_sorted_perm arr.length 0 arr rfl
    (by simp) (by simp)
  exact h.2

/-! ### Indexed-slice toolkit

QuickSort and InsertionSort mutate the slice through `int` indices.  `setL`
writes `arr[i] = x` (a no-op outside the slice, which the Go code never does),
`swapL` is the parallel assignment `arr[i], arr[j] = arr[j], arr[i]`. -/

/-- Write `l[i] = x` for a Go `int` index. -/
def setL (l : List Int) (i : Int) (x : Int) : List Int :=
  if 0 ≤ i then l.set i.toNat x else l

/-- Go `arr[i], arr[j] = arr[j], arr[i]`: both reads happen before both
writes. -/
def swapL (l : List Int) (i j : Int) : List Int :=
  let a := getL l i
  let b := getL l j
  setL (setL l i b) j a

theorem length_setL (l : List Int) (i x : Int) : (setL l i x).length = l.length := by
  rw [setL]
  split <;> simp

theorem length_swapL (l : List Int) (i j : Int) : (swapL l i j).length = l.length := by
  rw [swapL]
  simp only [length_setL]

theorem getL_setL_self {l : List Int} {i : Int} (x : Int) (hi0 : 0 ≤ i)
    (hil : i < l.length) : getL (setL l i x) i = x := by
  rw [setL, if_pos hi0, getL, if_pos hi0,
    List.getD_eq_getElem _ 0 (by simp; omega), List.getElem_set_self (by simp; omega)]

theorem getD_set_ne {l : List Int} {m k : Nat} (x : Int) (h : m ≠ k) :
    (l.set m x).getD k 0 = l.getD k 0 := by
  by_cases hk : k < l.length
  · rw [List.getD_eq_getElem _ 0 (by simp; omega), List.getD_eq_getElem _ 0 hk,
      List.getElem_set_ne h]
  · rw [List.getD_eq_default _ 0 (by simp; omega), List.getD_eq_default _ 0 (by omega)]

theorem getL_setL_ne {l : List Int} {i j : Int} (x : Int) (h : i ≠ j) :
    getL (setL l i x) j = getL l j := by
  rw [setL, getL, getL]
  by_cases hj : 0 ≤ j
  · rw [if_pos hj, if_pos hj]
    split
    · next hi =>
      exact getD_set_ne x (by omega)
    · rfl
  · rw [if_neg hj, if_neg hj]

theorem set_getElem_self_eq (l : List Int) (i : Nat) (hi : i < l.length) :
    l.set i l[i] = l := by
  apply List.ext_getElem
  · simp
  · intro n h1 h2
    rcases eq_or_ne i n with rfl | hne
    · rw [List.getElem_set_self]
    · rw [List.getElem_set_ne hne]

theorem count_set_of_lt (l : List Int) (i : Nat) (hi : i < l.length) (b a : Int) :
    (l.set i b).count a
      = l.count a + (if b = a then 1 else 0) - (if l[i] = a then 1 else 0) := by
  have hdecomp : l.count a
      = (l.take i).count a + ((if l[i] = a then 1 else 0) + (l.drop (i + 1)).count a) := by
    conv_lhs => rw [← List.take_append_drop i l]
    rw [List.drop_eq_getElem_cons hi]
    simp only [List.count_append, List.count_cons, beq_iff_eq]
    split_ifs with h1 h2 h2 <;> simp_all <;> omega
  rw [List.set_eq_take_cons_drop b hi, hdecomp]
  simp only [List.count_append, List.count_cons, beq_iff_eq]
  split_ifs with h1 h2 h2 <;> simp_all <;> omega

theorem swap_set_perm (l : List Int) (i j : Nat) (hi : i < l.length)
    (hj : j < l.length) :
    ((l.set i l[j]).set j l[i]).Perm l := by
  rcases eq_or_ne i j with rfl | hij
  · rw [List.set_set, set_getElem_self_eq]
  · rw [List.perm_iff_count]
    intro a
    have h1 := count_set_of_lt l i hi l[j] a
    have hj2 : j < (l.set i l[j]).length := by
      simp
      omega
    have h3 : (l.set i l[j])[j] = l[j] :=
      List.getElem_set_ne hij _
    have h2 := count_set_of_lt (l.set i l[j]) j hj2 l[i] a
    rw [h3] at h2
    rw [h2, h1]
    have hpos_i : l[i] = a → 0 < l.count a := by
      intro h
      rw [← h]
      exact List.count_pos_iff.mpr (List.getElem_mem hi)
    have hpos_j : l[j] = a → 0 < l.count a := by
      intro h
      rw [← h]
      exact List.count_pos_iff.mpr (List.getElem_mem hj)
    split_ifs <;> simp_all <;> omega

theorem swapL_perm {l : List Int} {i j : Int} (hi0 : 0 ≤ i) (hil : i < l.length)
    (hj0 : 0 ≤ j) (hjl : j < l.length) : (swapL l i j).Perm l := by
  rw [swapL, setL, setL, if_pos hi0, if_pos hj0]
  have hi2 : i.toNat < l.length := by omega
  have hj2 : j.toNat < l.length := by omega
  have hgi : getL l i = l[i.toNat] := getL_eq_getElem l i hi0 hil
  have hgj : getL l j = l[j.toNat] := getL_eq_getElem l j hj0 hjl
  rw [hgi, hgj]
  exact swap_set_perm l i.toNat j.toNat hi2 hj2

theorem getL_swapL_right {l : List Int} {i j : Int} (hj0 : 0 ≤ j)
    (hjl : j < l.length) : getL (swapL l i j) j = getL l i := by
  rw [swapL]
  exact getL_setL_self _ hj0 (by rw [length_setL]; exact hjl)

theorem getL_swapL_left {l : List Int} {i j : Int} (hi0 : 0 ≤ i)
    (hil : i < l.length) : getL (swapL l i j) i = getL l j := by
  rcases eq_or_ne i j with rfl | hij
  · rw [getL_swapL_right hi0 hil]
  · rw [swapL, getL_setL_ne _ (Ne.symm hij)]
    exact getL_setL_self _ hi0 hil

theorem getL_swapL_other {l : List Int} {i j k : Int} (hki : k ≠ i) (hkj : k ≠ j) :
    getL (swapL l i j) k = getL l k := by
  rw [swapL, getL_setL_ne _ (Ne.symm hkj), getL_setL_ne _ (Ne.symm hki)]

/-! ### InsertionSort

Go `InsertionSort` (sorting.go lines 129-141): for each `i` from 1, the inner
`for j >= 0 && arr[j] > key` loop shifts elements one slot right, then
`arr[j+1] = key` drops the key into the gap. -/

/-- The inner shift loop: returns the final slice contents and the final value
of `j`. -/
def shiftLoop (arr : List Int) (key : Int) (j : Int) : List Int × Int :=
  if h : 0 ≤ j ∧ key < getL arr j then
    shiftLoop (setL arr (j + 1) (getL arr j)) key (j - 1)
  else (arr, j)
termination_by (j + 1).toNat
decreasing_by omega

theorem shiftLoop_length (arr : List Int) (key : Int) (j : Int) :
    (shiftLoop arr key j).1.length = arr.length := by
  induction arr, key, j using shiftLoop.induct with
  | case1 arr key j h ih =>
    rw [shiftLoop, dif_pos h]
    rw [ih, length_setL]
  | case2 arr key j h =>
    rw [shiftLoop, dif_neg h]

/-- The outer `for i := 1; i < len(arr); i++` loop. -/
def insertionLoop (arr : List Int) (i : Nat) : List Int :=
  if h : i < arr.length then
    let key := getL arr i
    let r := shiftLoop arr key ((i : Int) - 1)
    insertionLoop (setL r.1 (r.2 + 1) key) (i + 1)
  else arr
termination_by arr.length - i
decreasing_by
  rw [length_setL, shiftLoop_length]
  omega

/-- Go `InsertionSort`; the in-place sort is modelled as returning the final
contents of the slice. -/
def InsertionSort (arr : List Int) : List Int :=
  insertionLoop arr 1

theorem setL_getL_self {arr : List Int} {i : Int} (hi0 : 0 ≤ i)
    (hil : i < arr.length) : setL arr i (getL arr i) = arr := by
  rw [setL, if_pos hi0, getL, if_pos hi0, List.getD_eq_getElem _ 0 (by omega)]
  exact set_getElem_self_eq arr i.toNat (by omega)

theorem eq_of_getL_ext {l₁ l₂ : List Int} (hlen : l₁.length = l₂.length)
    (h : ∀ k : Int, 0 ≤ k → k < l₁.length → getL l₁ k = getL l₂ k) : l₁ = l₂ := by
  apply List.ext_getElem hlen
  intro n h1 h2
  have := h n (by omega) (by omega)
  rw [getL_eq_getElem l₁ n (by omega) (by omega),
    getL_eq_getElem l₂ n (by omega) (by omega)] at this
  simpa using this

theorem sorted_of_getL_pairwise {l : List Int}
    (h : ∀ a b : Int, 0 ≤ a → a ≤ b → b < l.length → getL l a ≤ getL l b) :
    List.Sorted (· ≤ ·) l := by
  apply List.pairwise_iff_get.mpr
  intro i j hij
  have hg := h i j (by omega) (by exact_mod_cast le_of_lt (by exact_mod_cast hij))
    (by exact_mod_cast j.isLt)
  rw [getL_eq_getElem _ _ (by omega) (by exact_mod_cast i.isLt),
    getL_eq_getElem _ _ (by omega) (by exact_mod_cast j.isLt)] at hg
  simpa [List.get_eq_getElem] using hg

/-- The key algebraic step for the insertion-sort permutation argument:
writing `arr[j]` into slot `j+1` and later dropping `key` into slot `j` is,
up to the adjacent transposition `(j, j+1)`, the same as dropping `key` into
slot `j+1` directly. -/
theorem setL_shift_swap (arr : List Int) (key : Int) (j : Int) (hj0 : 0 ≤ j)
    (hjlen : j + 1 < arr.length) :
    setL (setL arr (j + 1) (getL arr j)) j key
      = swapL (setL arr (j + 1) key) j (j + 1) := by
  have hlen1 : (setL arr (j + 1) key).length = arr.length := length_setL _ _ _
  apply eq_of_getL_ext
  · rw [length_setL, length_setL, length_swapL, length_setL]
  · intro k hk0 hklen
    rw [length_setL, length_setL] at hklen
    rcases eq_or_ne k j with rfl | hkj
    · rw [getL_setL_self _ hk0 (by rw [length_setL]; omega)]
      rw [getL_swapL_left hk0 (by omega)]
      rw [getL_setL_self _ (by omega) (by omega)]
    · rcases eq_or_ne k (j + 1) with rfl | hkj1
      · rw [getL_setL_ne _ (Ne.symm hkj)]
        rw [getL_setL_self _ (by omega) (by omega)]
        rw [getL_swapL_right (by omega) (by omega)]
        rw [getL_setL_ne _ (by omega)]
      · rw [getL_setL_ne _ (Ne.symm hkj), getL_setL_ne _ (Ne.symm hkj1)]
        rw [getL_swapL_other hkj hkj1, getL_setL_ne _ (Ne.symm hkj1)]

theorem shiftLoop_place_perm (arr : List Int) (key : Int) (j : Int)
    (hjlen : j + 1 < arr.length) :
    (setL (shiftLoop arr key j).1 ((shiftLoop arr key j).2 + 1) key).Perm
      (setL arr (j + 1) key) := by
  induction arr, key, j using shiftLoop.induct with
  | case1 arr key j h ih =>
    rw [shiftLoop, dif_pos h]
    have hjl' : j - 1 + 1 < (setL arr (j + 1) (getL arr j)).length := by
      rw [length_setL]
      omega
    refine (ih hjl').trans ?_
    have heq : setL (setL arr (j + 1) (getL arr j)) (j - 1 + 1) key
        = swapL (setL arr (j + 1) key) j (j + 1) := by
      rw [show j - 1 + 1 = j by ring]
      exact setL_shift_swap arr key j h.1 hjlen
    rw [heq]
    exact swapL_perm (by omega) (by rw [length_setL]; omega) (by omega)
      (by rw [length_setL]; omega)
  | case2 arr key j h =>
    rw [shiftLoop, dif_neg h]

/-- Characterisation of the shift loop: `r.2 ≤ j` with the exit condition
holding at `r.2`; slots up to `r.2` are untouched, slots in `(r.2+1, j+1]`
received their left neighbour, slots beyond `j+1` are untouched, and every
scanned slot in `(r.2, j]` held a value greater than `key`. -/
theorem shiftLoop_spec (arr : List Int) (key : Int) (j : Int)
    (hjm1 : -1 ≤ j) (hjlen : j + 1 < arr.length) :
    (-1 ≤ (shiftLoop arr key j).2 ∧ (shiftLoop arr key j).2 ≤ j) ∧
    ((shiftLoop arr key j).2 < 0 ∨
      getL (shiftLoop arr key j).1 (shiftLoop arr key j).2 ≤ key) ∧
    (∀ k : Int, k ≤ (shiftLoop arr key j).2 →
      getL (shiftLoop arr key j).1 k = getL arr k) ∧
    (∀ k : Int, (shiftLoop arr key j).2 + 1 < k → k ≤ j + 1 →
      getL (shiftLoop arr key j).1 k = getL arr (k - 1)) ∧
    (∀ k : Int, j + 1 < k → getL (shiftLoop arr key j).1 k = getL arr k) ∧
    (∀ k : Int, (shiftLoop arr key j).2 < k → k ≤ j → key < getL arr k) := by
  induction arr, key, j using shiftLoop.induct with
  | case1 arr key j h ih =>
    rw [shiftLoop, dif_pos h]
    have hlen' : (j - 1) + 1 < (setL arr (j + 1) (getL arr j)).length := by
      rw [length_setL]
      omega
    obtain ⟨⟨hb1, hb2⟩, hexit, huptoj, hmid, hbeyond, hscanned⟩ := ih (by omega) hlen'
    have harr' : ∀ k : Int, k ≠ j + 1 →
        getL (setL arr (j + 1) (getL arr j)) k = getL arr k := by
      intro k hk
      exact getL_setL_ne _ (Ne.symm hk)
    have harrj1 : getL (setL arr (j + 1) (getL arr j)) (j + 1) = getL arr j :=
      getL_setL_self _ (by omega) (by omega)
    refine ⟨⟨by omega, by omega⟩, hexit, ?_, ?_, ?_, ?_⟩
    · intro k hk
      rw [huptoj k hk, harr' k (by omega)]
    · intro k hk1 hk2
      rcases lt_or_le k (j + 1) with hklt | hkge
      · rw [hmid k hk1 (by omega), harr' (k - 1) (by omega)]
      · have hkeq : k = j + 1 := by omega
        subst hkeq
        rw [hbeyond (j + 1) (by omega), harrj1]
        congr 1
        omega
    · intro k hk
      rw [hbeyond k (by omega), harr' k (by omega)]
    · intro k hk1 hk2
      rcases lt_or_le k j with hklt | hkge
      · have := hscanned k hk1 (by omega)
        rw [harr' k (by omega)] at this
        exact this
      · have hkeq : k = j := by omega
        subst hkeq
        exact h.2
  | case2 arr key j h =>
    rw [shiftLoop, dif_neg h]
    dsimp only
    rw [Classical.not_and_iff_or_not_not] at h
    refine ⟨⟨hjm1, le_rfl⟩, ?_, fun k _ => rfl, ?_, fun k _ => rfl, ?_⟩
    · rcases h with h | h
      · left
        omega
      · right
        omega
    · intro k hk1 hk2
      omega
    · intro k hk1 hk2
      omega

theorem insertionLoop_spec (n : Nat) :
    ∀ (i : Nat) (arr : List Int), arr.length = n →
    (∀ a b : Int, 0 ≤ a → a ≤ b → b < (i : Int) → getL arr a ≤ getL arr b) →
    (insertionLoop arr i).Perm arr ∧
    (∀ a b : Int, 0 ≤ a → a ≤ b → b < (insertionLoop arr i).length →
      getL (insertionLoop arr i) a ≤ getL (insertionLoop arr i) b) := by
  suffices H : ∀ (gas i : Nat) (arr : List Int), n - i = gas → arr.length = n →
      (∀ a b : Int, 0 ≤ a → a ≤ b → b < (i : Int) → getL arr a ≤ getL arr b) →
      (insertionLoop arr i).Perm arr ∧
      (∀ a b : Int, 0 ≤ a → a ≤ b → b < (insertionLoop arr i).length →
        getL (insertionLoop arr i) a ≤ getL (insertionLoop arr i) b) by
    exact fun i arr => H _ i arr rfl
  intro gas
  induction gas using Nat.strong_induction_on with
  | _ gas ih =>
  intro i arr hgas hlen hpre
  rw [insertionLoop]
  by_cases hi : i < arr.length
  · rw [dif_pos hi]
    have hjlen : ((i : Int) - 1) + 1 < arr.length := by omega
    obtain ⟨⟨hb1, hb2⟩, hexit, huptoj, hmid, hbeyond, hscanned⟩ :=
      shiftLoop_spec arr (getL arr i) ((i : Int) - 1) (by omega) hjlen
    set r := shiftLoop arr (getL arr i) ((i : Int) - 1) with hr
    set key := getL arr i with hkey
    have hrlen : r.1.length = arr.length := shiftLoop_length _ _ _
    have harr1len : (setL r.1 (r.2 + 1) key).length = n := by
      rw [length_setL, hrlen, hlen]
    -- the new slice is a permutation of the old one
    have hperm1 : (setL r.1 (r.2 + 1) key).Perm arr := by
      have hplace := shiftLoop_place_perm arr key ((i : Int) - 1) hjlen
      rw [show (i : Int) - 1 + 1 = (i : Int) by ring] at hplace
      rw [hkey] at hplace ⊢
      refine hplace.trans ?_
      rw [setL_getL_self (by omega) (by exact_mod_cast hi)]
    -- reading the new slice
    have hget : ∀ k : Int, 0 ≤ k →
        getL (setL r.1 (r.2 + 1) key) k =
          if k = r.2 + 1 then key
          else if k ≤ r.2 then getL arr k
          else if k ≤ (i : Int) then getL arr (k - 1)
          else getL arr k := by
      intro k hk0
      rcases eq_or_ne k (r.2 + 1) with rfl | hkne
      · rw [if_pos rfl]
        exact getL_setL_self _ (by omega) (by rw [hrlen]; omega)
      · rw [if_neg hkne, getL_setL_ne _ (Ne.symm hkne)]
        rcases le_or_lt k r.2 with hk1 | hk1
        · rw [if_pos hk1]
          exact huptoj k hk1
        · rw [if_neg (by omega)]
          rcases le_or_lt k (i : Int) with hk2 | hk2
          · rw [if_pos hk2]
            exact hmid k (by omega) (by omega)
          · rw [if_neg (by omega)]
            exact hbeyond k (by omega)
    -- the extended prefix is sorted
    have hpre' : ∀ a b : Int, 0 ≤ a → a ≤ b → b < ((i + 1 : Nat) : Int) →
        getL (setL r.1 (r.2 + 1) key) a ≤ getL (setL r.1 (r.2 + 1) key) b := by
      intro a b ha0 hab hb
      have hbi : b ≤ (i : Int) := by push_cast at hb; omega
      rw [hget a ha0, hget b (by omega)]
      have hexit' : r.2 < 0 ∨ getL arr r.2 ≤ key := by
        rcases hexit with hneg | hle
        · exact Or.inl hneg
        · right
          rw [huptoj r.2 le_rfl] at hle
          exact hle
      by_cases haeq : a = r.2 + 1
      · rw [if_pos haeq]
        by_cases hbeq : b = r.2 + 1
        · rw [if_pos hbeq]
        · rw [if_neg hbeq, if_neg (by omega), if_pos hbi]
          exact le_of_lt (hscanned (b - 1) (by omega) (by omega))
      · rw [if_neg haeq]
        by_cases hale : a ≤ r.2
        · rw [if_pos hale]
          by_cases hbeq : b = r.2 + 1
          · rw [if_pos hbeq]
            rcases hexit' with hneg | hle
            · exfalso
              omega
            · exact le_trans (hpre a r.2 ha0 (by omega) (by omega)) hle
          · rw [if_neg hbeq]
            by_cases hble : b ≤ r.2
            · rw [if_pos hble]
              exact hpre a b ha0 hab (by omega)
            · rw [if_neg hble, if_pos hbi]
              exact hpre a (b - 1) ha0 (by omega) (by omega)
        · rw [if_neg hale, if_pos (le_trans hab hbi)]
          by_cases hbeq : b = r.2 + 1
          · exfalso
            omega
          · rw [if_neg hbeq]
            by_cases hble : b ≤ r.2
            · exfalso
              omega
            · rw [if_neg hble, if_pos hbi]
              exact hpre (a - 1) (b - 1) (by omega) (by omega) (by omega)
    obtain ⟨hP, hS⟩ := ih (n - (i + 1)) (by omega) (i + 1) (setL r.1 (r.2 + 1) key)
      rfl harr1len hpre'
    exact ⟨hP.trans hperm1, hS⟩
  · rw [dif_neg hi]
    refine ⟨List.Perm.refl _, ?_⟩
    intro a b ha0 hab hb
    exact hpre a b ha0 hab (by omega)

theorem InsertionSort_perm (arr : List Int) : (InsertionSort arr).Perm arr := by
  have h := insertionLoop_spec arr.length 1 arr rfl (by
    intro a b ha hab hb
    have hab' : a = b := by omega
    rw [hab'])
  exact h.1

theorem InsertionSort_sorted (arr : List Int) :
    List.Sorted (· ≤ ·) (InsertionSort arr) := by
  have h := insertionLoop_spec arr.length 1 arr rfl (by
    intro a b ha hab hb
    have hab' : a = b := by omega
    rw [hab'])
  exact sorted_of_getL_pairwise h.2

/-! ### QuickSort

Go `QuickSort` (sorting.go lines 50-82): Lomuto partition with the rightmost
element as pivot, then recursion on the two sides of the pivot index. -/

/-- The `for j := low; j < high; j++` loop of Go `partition`
(sorting.go lines 72-77). -/
def partitionLoop (arr : List Int) (pivot : Int) (high : Int) (i j : Int) :
    List Int × Int :=
  if h : j < high then
    if getL arr j ≤ pivot then
      partitionLoop (swapL arr (i + 1) j) pivot high (i + 1) (j + 1)
    else
      partitionLoop arr pivot high i (j + 1)
  else (arr, i)
termination_by (high - j).toNat
decreasing_by
  · omega
  · omega

/-- Go `partition` (sorting.go lines 66-82): run the loop from `i = low-1`,
`j = low`, then swap the pivot into slot `i+1`. -/
def partition (arr : List Int) (low high : Int) : List Int × Int :=
  let pivot := getL arr high
  let r := partitionLoop arr pivot high (low - 1) low
  (swapL r.1 (r.2 + 1) high, r.2 + 1)

theorem partitionLoop_length (arr : List Int) (pivot high i j : Int) :
    (partitionLoop arr pivot high i j).1.length = arr.length := by
  induction arr, pivot, high, i, j using partitionLoop.induct with
  | case1 arr pivot high i j h hle ih =>
    rw [partitionLoop, dif_pos h, if_pos hle, ih, length_swapL]
  | case2 arr pivot high i j h hle ih =>
    rw [partitionLoop, dif_pos h, if_neg hle, ih]
  | case3 arr pivot high i j h =>
    rw [partitionLoop, dif_neg h]

theorem partitionLoop_i_bounds (arr : List Int) (pivot high i j : Int)
    (hij : i < j) (hjh : j ≤ high) :
    i ≤ (partitionLoop arr pivot high i j).2 ∧
      (partitionLoop arr pivot high i j).2 < high := by
  induction arr, pivot, high, i, j using partitionLoop.induct with
  | case1 arr pivot high i j h hle ih =>
    rw [partitionLoop, dif_pos h, if_pos hle]
    have := ih (by omega) (by omega)
    omega
  | case2 arr pivot high i j h hle ih =>
    rw [partitionLoop, dif_pos h, if_neg hle]
    have := ih (by omega) (by omega)
    omega
  | case3 arr pivot high i j h =>
    rw [partitionLoop, dif_neg h]
    dsimp only
    omega

theorem partition_snd_bound (arr : List Int) (low high : Int) (h : low < high) :
    low ≤ (partition arr low high).2 ∧ (partition arr low high).2 ≤ high := by
  rw [partition]
  dsimp only
  have := partitionLoop_i_bounds arr (getL arr high) high (low - 1) low
    (by omega) (by omega)
  omega

/-- Go `quickSortHelper` (sorting.go lines 54-64). -/
def quickSortHelper (arr : List Int) (low high : Int) : List Int :=
  if h : low < high then
    let p := partition arr low high
    quickSortHelper (quickSortHelper p.1 low (p.2 - 1)) (p.2 + 1) high
  else arr
termination_by (high - low).toNat
decreasing_by
  · have := partition_snd_bound arr low high h
    omega
  · have := partition_snd_bound arr low high h
    omega

/-- Go `QuickSort` (sorting.go lines 50-52); the in-place sort is modelled as
returning the final contents of the slice. -/
def QuickSort (arr : List Int) : List Int :=
  quickSortHelper arr 0 ((arr.length : Int) - 1)

/-- The values of `l` on the index segment `[lo, hi]` (empty when `hi < lo`). -/
def segVals (l : List Int) (lo hi : Int) : List Int :=
  (List.range (hi + 1 - lo).toNat).map (fun t : Nat => getL l (lo + (t : Int)))

theorem segVals_full (l : List Int) : segVals l 0 ((l.length : Int) - 1) = l := by
  apply List.ext_getElem
  · simp [segVals]
  · intro n h1 h2
    simp only [segVals, List.getElem_map, List.getElem_range]
    rw [show ((0 : Int) + n) = (n : Int) by omega]
    rw [getL_eq_getElem l n (by omega) (by omega)]
    simp

theorem segVals_split (l : List Int) (lo m hi : Int) (h1 : lo - 1 ≤ m)
    (h2 : m ≤ hi) :
    segVals l lo hi = segVals l lo m ++ segVals l (m + 1) hi := by
  rw [segVals, segVals, segVals]
  have hsum : (hi + 1 - lo).toNat = (m + 1 - lo).toNat + (hi - m).toNat := by omega
  rw [hsum, List.range_add, List.map_append, List.map_map]
  congr 1
  rw [show (hi + 1 - (m + 1)).toNat = (hi - m).toNat by omega]
  apply List.map_congr_left
  intro t ht
  simp only [Function.comp_apply]
  congr 1
  push_cast
  omega

theorem segVals_congr {l' l : List Int} (lo hi : Int)
    (h : ∀ k : Int, lo ≤ k → k ≤ hi → getL l' k = getL l k) :
    segVals l' lo hi = segVals l lo hi := by
  apply List.map_congr_left
  intro t ht
  rw [List.mem_range] at ht
  exact h (lo + t) (by omega) (by omega)

theorem segVals_perm {l' l : List Int} {lo hi : Int} (hperm : l'.Perm l)
    (hlen : l'.length = l.length) (hlo : 0 ≤ lo) (hhi : hi < l.length)
    (houts : ∀ k : Int, k < lo ∨ hi < k → getL l' k = getL l k) :
    (segVals l' lo hi).Perm (segVals l lo hi) := by
  rcases le_or_lt lo hi with hline | hline
  · have hn : l'.length = l.length := hlen
    have hfull' : segVals l' 0 ((l.length : Int) - 1) = l' := by
      rw [← hn]
      exact segVals_full l'
    have hfull : segVals l 0 ((l.length : Int) - 1) = l := segVals_full l
    have hsplit' : l' = segVals l' 0 (lo - 1) ++ segVals l' lo hi
        ++ segVals l' (hi + 1) ((l.length : Int) - 1) := by
      conv_lhs => rw [← hfull']
      rw [segVals_split l' 0 (lo - 1) ((l.length : Int) - 1) (by omega) (by omega),
        show lo - 1 + 1 = lo by ring,
        segVals_split l' lo hi ((l.length : Int) - 1) (by omega) (by omega)]
      exact (List.append_assoc _ _ _).symm
    have hsplit : l = segVals l 0 (lo - 1) ++ segVals l lo hi
        ++ segVals l (hi + 1) ((l.length : Int) - 1) := by
      conv_lhs => rw [← hfull]
      rw [segVals_split l 0 (lo - 1) ((l.length : Int) - 1) (by omega) (by omega),
        show lo - 1 + 1 = lo by ring,
        segVals_split l lo hi ((l.length : Int) - 1) (by omega) (by omega)]
      exact (List.append_assoc _ _ _).symm
    have hA : segVals l' 0 (lo - 1) = segVals l 0 (lo - 1) :=
      segVals_congr _ _ (fun k hk1 hk2 => houts k (Or.inl (by omega)))
    have hC : segVals l' (hi + 1) ((l.length : Int) - 1)
        = segVals l (hi + 1) ((l.length : Int) - 1) :=
      segVals_congr _ _ (fun k hk1 hk2 => houts k (Or.inr (by omega)))
    have heq' : l' = segVals l 0 (lo - 1) ++ segVals l' lo hi
        ++ segVals l (hi + 1) ((l.length : Int) - 1) := by
      refine hsplit'.trans ?_
      rw [hA, hC]
    have hlp : l.Perm (segVals l 0 (lo - 1) ++ segVals l lo hi
        ++ segVals l (hi + 1) ((l.length : Int) - 1)) := by
      rw [← hsplit]
    have hthis := hperm
    rw [heq'] at hthis
    have hp := hthis.trans hlp
    have hp' : (segVals l 0 (lo - 1) ++ (segVals l' lo hi
        ++ segVals l (hi + 1) ((l.length : Int) - 1))).Perm
        (segVals l 0 (lo - 1) ++ (segVals l lo hi
        ++ segVals l (hi + 1) ((l.length : Int) - 1))) := by
      simpa [List.append_assoc] using hp
    have hp2 := (List.perm_append_left_iff _).mp hp'
    exact (List.perm_append_right_iff _).mp hp2
  · have h1 : segVals l' lo hi = [] := by
      simp [segVals, show (hi + 1 - lo).toNat = 0 by omega]
    have h2 : segVals l lo hi = [] := by
      simp [segVals, show (hi + 1 - lo).toNat = 0 by omega]
    rw [h1, h2]

theorem getL_mem_segVals {l : List Int} {lo hi k : Int} (h1 : lo ≤ k)
    (h2 : k ≤ hi) : getL l k ∈ segVals l lo hi := by
  rw [segVals, List.mem_map]
  refine ⟨(k - lo).toNat, ?_, ?_⟩
  · rw [List.mem_range]
    omega
  · congr 1
    omega

theorem mem_segVals_exists {l : List Int} {lo hi : Int} {x : Int}
    (h : x ∈ segVals l lo hi) : ∃ k : Int, lo ≤ k ∧ k ≤ hi ∧ getL l k = x := by
  rw [segVals, List.mem_map] at h
  obtain ⟨t, ht, rfl⟩ := h
  rw [List.mem_range] at ht
  exact ⟨lo + t, by omega, by omega, rfl⟩

/-- Transfer a pointwise bound on a segment across a permutation that fixes
everything outside the segment. -/
theorem segment_bound_transfer {l' l : List Int} {lo hi : Int} (P : Int → Prop)
    (hperm : l'.Perm l) (hlen : l'.length = l.length) (hlo : 0 ≤ lo)
    (hhi : hi < l.length)
    (houts : ∀ k : Int, k < lo ∨ hi < k → getL l' k = getL l k)
    (hP : ∀ k : Int, lo ≤ k → k ≤ hi → P (getL l k)) :
    ∀ k : Int, lo ≤ k → k ≤ hi → P (getL l' k) := by
  intro k hk1 hk2
  have hmem : getL l' k ∈ segVals l' lo hi := getL_mem_segVals hk1 hk2
  have hmem2 : getL l' k ∈ segVals l lo hi :=
    (segVals_perm hperm hlen hlo hhi houts).mem_iff.mp hmem
  obtain ⟨k', hk'1, hk'2, heq⟩ := mem_segVals_exists hmem2
  rw [← heq]
  exact hP k' hk'1 hk'2

/-- Invariant-carrying specification of the Lomuto partition loop: positions
up to `i` and from `high` on are untouched, the result is a permutation, and
on exit the region `[lo, r.2]` holds values `≤ pivot` while `(r.2, high)`
holds values `> pivot`. -/
theorem partitionLoop_spec (arr : List Int) (pivot high i j lo : Int)
    (him : -1 ≤ i) (hloi : lo ≤ i + 1) (hij : i < j) (hjh : j ≤ high)
    (hhl : high < arr.length)
    (hsmall : ∀ k : Int, lo ≤ k → k ≤ i → getL arr k ≤ pivot)
    (hbig : ∀ k : Int, i < k → k < j → pivot < getL arr k) :
    (partitionLoop arr pivot high i j).1.length = arr.length ∧
    (partitionLoop arr pivot high i j).1.Perm arr ∧
    (∀ k : Int, k ≤ i ∨ high ≤ k →
      getL (partitionLoop arr pivot high i j).1 k = getL arr k) ∧
    (∀ k : Int, lo ≤ k → k ≤ (partitionLoop arr pivot high i j).2 →
      getL (partitionLoop arr pivot high i j).1 k ≤ pivot) ∧
    (∀ k : Int, (partitionLoop arr pivot high i j).2 < k → k < high →
      pivot < getL (partitionLoop arr pivot high i j).1 k) := by
  induction arr, pivot, high, i, j using partitionLoop.induct with
  | case1 arr pivot high i j h hle ih =>
    rw [partitionLoop, dif_pos h, if_pos hle]
    have hbnd := partitionLoop_i_bounds (swapL arr (i + 1) j) pivot high (i + 1) (j + 1)
      (by omega) (by omega)
    have hlen' : (swapL arr (i + 1) j).length = arr.length := length_swapL _ _ _
    -- reading the swapped slice
    have hswap_i1 : getL (swapL arr (i + 1) j) (i + 1) = getL arr j :=
      getL_swapL_left (by omega) (by omega)
    have hswap_j : getL (swapL arr (i + 1) j) j = getL arr (i + 1) :=
      getL_swapL_right (by omega) (by omega)
    have hswap_other : ∀ k : Int, k ≠ i + 1 → k ≠ j →
        getL (swapL arr (i + 1) j) k = getL arr k :=
      fun k h1 h2 => getL_swapL_other h1 h2
    have hsmall' : ∀ k : Int, lo ≤ k → k ≤ i + 1 →
        getL (swapL arr (i + 1) j) k ≤ pivot := by
      intro k hk1 hk2
      rcases eq_or_ne k (i + 1) with rfl | hne
      · rw [hswap_i1]
        exact hle
      · rw [hswap_other k hne (by omega)]
        exact hsmall k hk1 (by omega)
    have hbig' : ∀ k : Int, i + 1 < k → k < j + 1 →
        pivot < getL (swapL arr (i + 1) j) k := by
      intro k hk1 hk2
      rcases eq_or_ne k j with rfl | hne
      · rw [hswap_j]
        exact hbig (i + 1) (by omega) (by omega)
      · rw [hswap_other k (by omega) hne]
        exact hbig k (by omega) (by omega)
    obtain ⟨ihlen, ihperm, ihout, ihsmall, ihbig⟩ :=
      ih (by omega) (by omega) (by omega) (by omega) (by omega) hsmall' hbig'
    refine ⟨by rw [ihlen, hlen'], ?_, ?_, ihsmall, ihbig⟩
    · exact ihperm.trans (swapL_perm (by omega) (by omega) (by omega) (by omega))
    · intro k hk
      rw [ihout k (by omega)]
      exact hswap_other k (by omega) (by omega)
  | case2 arr pivot high i j h hle ih =>
    rw [partitionLoop, dif_pos h, if_neg hle]
    have hbig' : ∀ k : Int, i < k → k < j + 1 → pivot < getL arr k := by
      intro k hk1 hk2
      rcases eq_or_ne k j with rfl | hne
      · omega
      · exact hbig k hk1 (by omega)
    exact ih him hloi (by omega) (by omega) hhl hsmall hbig'
  | case3 arr pivot high i j h =>
    rw [partitionLoop, dif_neg h]
    dsimp only
    refine ⟨rfl, List.Perm.refl _, fun k _ => rfl, ?_, ?_⟩
    · intro k hk1 hk2
      exact hsmall k hk1 hk2
    · intro k hk1 hk2
      exact hbig k hk1 (by omega)

/-- Specification of Go `partition`: the returned index `p` lies in
`[low, high]`, the slice is permuted only inside `[low, high]`, values in
`[low, p)` are `≤ arr'[p]` and values in `(p, high]` are `> arr'[p]`. -/
theorem partition_spec (arr : List Int) (low high : Int) (hlh : low < high)
    (h0 : 0 ≤ low) (hhl : high < arr.length) :
    low ≤ (partition arr low high).2 ∧ (partition arr low high).2 ≤ high ∧
    (partition arr low high).1.length = arr.length ∧
    (partition arr low high).1.Perm arr ∧
    (∀ k : Int, k < low ∨ high < k →
      getL (partition arr low high).1 k = getL arr k) ∧
    (∀ k : Int, low ≤ k → k < (partition arr low high).2 →
      getL (partition arr low high).1 k
        ≤ getL (partition arr low high).1 (partition arr low high).2) ∧
    (∀ k : Int, (partition arr low high).2 < k → k ≤ high →
      getL (partition arr low high).1 (partition arr low high).2
        < getL (partition arr low high).1 k) := by
  obtain ⟨hlen, hperm, hout, hsmall, hbig⟩ :=
    partitionLoop_spec arr (getL arr high) high (low - 1) low low
      (by omega) (by omega) (by omega) (by omega) hhl
      (by intro k hk1 hk2; omega)
      (by intro k hk1 hk2; omega)
  have hbnd := partitionLoop_i_bounds arr (getL arr high) high (low - 1) low
    (by omega) (by omega)
  rw [partition]
  dsimp only
  set r := partitionLoop arr (getL arr high) high (low - 1) low with hr
  have hrhigh : getL r.1 high = getL arr high := hout high (by omega)
  have hlen2 : (swapL r.1 (r.2 + 1) high).length = arr.length := by
    rw [length_swapL, hlen]
  have hpiv : getL (swapL r.1 (r.2 + 1) high) (r.2 + 1) = getL arr high := by
    rw [getL_swapL_left (by omega) (by rw [hlen]; omega), hrhigh]
  have hothers : ∀ k : Int, k ≠ r.2 + 1 → k ≠ high →
      getL (swapL r.1 (r.2 + 1) high) k = getL r.1 k :=
    fun k h1 h2 => getL_swapL_other h1 h2
  refine ⟨by omega, by omega, hlen2, ?_, ?_, ?_, ?_⟩
  · exact (swapL_perm (by omega) (by rw [hlen]; omega) (by omega)
      (by rw [hlen]; omega)).trans hperm
  · intro k hk
    rw [hothers k (by omega) (by omega)]
    exact hout k (by omega)
  · intro k hk1 hk2
    rw [hpiv, hothers k (by omega) (by omega)]
    exact hsmall k hk1 (by omega)
  · intro k hk1 hk2
    rw [hpiv]
    rcases eq_or_ne k high with heq | hne
    · rw [heq]
      rcases eq_or_ne (r.2 + 1) high with he | hne2
      · omega
      · rw [getL_swapL_right (by omega) (by rw [hlen]; omega)]
        exact hbig (r.2 + 1) (by omega) (by omega)
    · rw [hothers k (by omega) hne]
      exact hbig k (by omega) (by omega)

theorem quickSortHelper_spec :
    ∀ (gas : Nat) (arr : List Int) (low high : Int), (high - low).toNat = gas →
    0 ≤ low → high < arr.length →
    (quickSortHelper arr low high).length = arr.length ∧
    (quickSortHelper arr low high).Perm arr ∧
    (∀ k : Int, k < low ∨ high < k →
      getL (quickSortHelper arr low high) k = getL arr k) ∧
    (∀ a b : Int, low ≤ a → a ≤ b → b ≤ high →
      getL (quickSortHelper arr low high) a ≤ getL (quickSortHelper arr low high) b) := by
  intro gas
  induction gas using Nat.strong_induction_on with
  | _ gas ih =>
  intro arr low high hgas h0 hhl
  rw [quickSortHelper]
  by_cases h : low < high
  · rw [dif_pos h]
    obtain ⟨hp1, hp2, hplen, hpperm, hpout, hpsmall, hpbig⟩ :=
      partition_spec arr low high h h0 hhl
    set p := partition arr low high with hp
    obtain ⟨h1len, h1perm, h1out, h1sorted⟩ :=
      ih (p.2 - 1 - low).toNat (by omega) p.1 low (p.2 - 1) rfl h0
        (by rw [hplen]; omega)
    set q1 := quickSortHelper p.1 low (p.2 - 1) with hq1
    obtain ⟨h2len, h2perm, h2out, h2sorted⟩ :=
      ih (high - (p.2 + 1)).toNat (by omega) q1 (p.2 + 1) high rfl (by omega)
        (by rw [h1len, hplen]; omega)
    set q2 := quickSortHelper q1 (p.2 + 1) high with hq2
    have hq1_p2 : getL q1 p.2 = getL p.1 p.2 := h1out p.2 (Or.inr (by omega))
    have hq2_p2 : getL q2 p.2 = getL q1 p.2 := h2out p.2 (Or.inl (by omega))
    -- values left of the pivot stay ≤ pivot through the left recursive sort
    have hsmall_q1 : ∀ k : Int, low ≤ k → k ≤ p.2 - 1 →
        getL q1 k ≤ getL p.1 p.2 := by
      refine segment_bound_transfer (fun x => x ≤ getL p.1 p.2) h1perm h1len h0
        (by rw [hplen]; omega) (fun k hk => h1out k hk) ?_
      intro k hk1 hk2
      exact hpsmall k hk1 (by omega)
    -- values right of the pivot stay > pivot through both recursive sorts
    have hbig_q1 : ∀ k : Int, p.2 + 1 ≤ k → k ≤ high →
        getL p.1 p.2 < getL q1 k := by
      intro k hk1 hk2
      rw [h1out k (Or.inr (by omega))]
      exact hpbig k (by omega) hk2
    have hbig_q2 : ∀ k : Int, p.2 + 1 ≤ k → k ≤ high →
        getL p.1 p.2 < getL q2 k := by
      refine segment_bound_transfer (fun x => getL p.1 p.2 < x) h2perm h2len
        (by omega) (by rw [h1len, hplen]; omega) (fun k hk => h2out k hk) ?_
      intro k hk1 hk2
      exact hbig_q1 k hk1 hk2
    refine ⟨by rw [h2len, h1len, hplen], (h2perm.trans h1perm).trans hpperm, ?_, ?_⟩
    · intro k hk
      rw [h2out k (by omega), h1out k (by omega), hpout k hk]
    · intro a b ha hab hb
      rcases le_or_lt b (p.2 - 1) with hbp | hbp
      · rw [h2out a (Or.inl (by omega)), h2out b (Or.inl (by omega))]
        exact h1sorted a b ha hab hbp
      · rcases le_or_lt a (p.2 - 1) with hap | hap
        · rcases eq_or_ne b p.2 with hbeq | hbne
          · rw [hbeq, hq2_p2, hq1_p2, h2out a (Or.inl (by omega))]
            exact hsmall_q1 a ha hap
          · have hb2 : p.2 + 1 ≤ b := by omega
            rw [h2out a (Or.inl (by omega))]
            have h1 : getL q1 a ≤ getL p.1 p.2 := hsmall_q1 a ha hap
            have h2 : getL p.1 p.2 < getL q2 b := hbig_q2 b hb2 hb
            omega
        · rcases eq_or_ne a p.2 with haeq | hane
          · rcases eq_or_ne b p.2 with hbeq | hbne
            · rw [haeq, hbeq]
            · have hb2 : p.2 + 1 ≤ b := by omega
              rw [haeq, hq2_p2, hq1_p2]
              exact le_of_lt (hbig_q2 b hb2 hb)
          · have ha2 : p.2 + 1 ≤ a := by omega
            exact h2sorted a b ha2 hab hb
  · rw [dif_neg h]
    refine ⟨rfl, List.Perm.refl _, fun k _ => rfl, ?_⟩
    intro a b ha hab hb
    have hab' : a = b := by omega
    rw [hab']

theorem QuickSort_perm (arr : List Int) : (QuickSort arr).Perm arr := by
  have h := quickSortHelper_spec (((arr.length : Int) - 1) - 0).toNat arr 0
    ((arr.length : Int) - 1) rfl le_rfl (by omega)
  exact h.2.1

theorem QuickSort_sorted (arr : List Int) : List.Sorted (· ≤ ·) (QuickSort arr) := by
  have h := quickSortHelper_spec (((arr.length : Int) - 1) - 0).toNat arr 0
    ((arr.length : Int) - 1) rfl le_rfl (by omega)
  apply sorted_of_getL_pairwise
  intro a b ha hab hb
  have hlen : (QuickSort arr).length = arr.length := h.1
  exact h.2.2.2 a b ha hab (by rw [hlen] at hb; omega)

/-- **C1.** Each of the four sorting functions turns every int array into a
non-decreasing permutation of its original contents (`BubbleSort`,
`QuickSort`, `InsertionSort` in place — modelled as the final slice contents —
and `MergeSort` by returning a new slice). -/
theorem claim_c1_sorts_correct (arr : List Int) :
    (List.Sorted (· ≤ ·) (BubbleSort arr) ∧ (BubbleSort arr).Perm arr) ∧
    (List.Sorted (· ≤ ·) (QuickSort arr) ∧ (QuickSort arr).Perm arr) ∧
    (List.Sorted (· ≤ ·) (MergeSort arr) ∧ (MergeSort arr).Perm arr) ∧
    (List.Sorted (· ≤ ·) (InsertionSort arr) ∧ (InsertionSort arr).Perm arr) :=
  ⟨⟨BubbleSort_sorted arr, BubbleSort_perm arr⟩,
    ⟨QuickSort_sorted arr, QuickSort_perm arr⟩,
    ⟨MergeSort_sorted arr, MergeSort_perm arr⟩,
    ⟨InsertionSort_sorted arr, InsertionSort_perm arr⟩⟩

/-! ## Graph (src/02-data-structures/graph.go)

`Graph.vertices` is Go's `map[int][]int`, modelled as an association list in
insertion order (iteration order is never used by `BFS`/`DFS`; only lookup
and update are, and a missing key reads as the empty adjacency list exactly
like a Go `nil` slice).  The `visited` maps are modelled as the list of
vertices marked so far, with membership tests. -/

structure Graph where
  vertices : List (Int × List Int)
deriving Repr, DecidableEq

/-- Go `NewGraph`. -/
def NewGraph : Graph := ⟨[]⟩

/-- Lookup of `g.vertices[v]` (with the key-present bit). -/
def assocFind : List (Int × List Int) → Int → Option (List Int)
  | [], _ => none
  | (k, vs) :: rest, v => if k = v then some vs else assocFind rest v

/-- Go `AddVertex`: insert an empty adjacency list unless the key exists. -/
def Graph.AddVertex (g : Graph) (v : Int) : Graph :=
  match assocFind g.vertices v with
  | some _ => g
  | none => ⟨g.vertices ++ [(v, [])]⟩

/-- `g.vertices[v] = append(g.vertices[v], w)`: appends to the entry,
creating it when absent (appending to a `nil` slice). -/
def updateAdj : List (Int × List Int) → Int → Int → List (Int × List Int)
  | [], v, w => [(v, [w])]
  | (k, vs) :: rest, v, w =>
    if k = v then (k, vs ++ [w]) :: rest else (k, vs) :: updateAdj rest v w

/-- Go `AddEdge` (graph.go lines 51-56): both directions. -/
def Graph.AddEdge (g : Graph) (v1 v2 : Int) : Graph :=
  ⟨updateAdj (updateAdj g.vertices v1 v2) v2 v1⟩

/-- Reading `g.vertices[v]` in an expression context: missing keys give the
empty slice. -/
def Graph.getAdj (g : Graph) (v : Int) : List Int :=
  (assocFind g.vertices v).getD []

/-- One graph-building call of the driver `main`. -/
inductive GraphOp where
  | vertex (v : Int) : GraphOp
  | edge (v1 v2 : Int) : GraphOp
deriving Repr, DecidableEq

/-- Build a graph by a sequence of `AddVertex`/`AddEdge` calls on `NewGraph`. -/
def buildGraph (ops : List GraphOp) : Graph :=
  ops.foldl
    (fun g op =>
      match op with
      | .vertex v => g.AddVertex v
      | .edge a b => g.AddEdge a b)
    NewGraph

/-- `v → w` when `w` is in `v`'s adjacency list. -/
def adjRel (g : Graph) (a b : Int) : Prop := b ∈ g.getAdj a

/-- `v` is reachable from `start` along adjacency-list edges (including
`start` itself). -/
def Reachable (g : Graph) (start v : Int) : Prop :=
  Relation.ReflTransGen (adjRel g) start v

/-- The inner `for _, neighbor := range g.vertices[vertex]` loop of Go `BFS`
(graph.go lines 86-91): enqueue and mark each unvisited neighbour. -/
def enqueueLoop (neighbors queue visited : List Int) : List Int × List Int :=
  match neighbors with
  | [] => (queue, visited)
  | n :: rest =>
    if n ∈ visited then enqueueLoop rest queue visited
    else enqueueLoop rest (queue ++ [n]) (visited ++ [n])

/-- Every vertex that can ever be seen by a traversal of `g` from `start`:
`start`, every key, and every adjacency-list entry.  Used only to bound the
loop fuel. -/
def univList (g : Graph) (start : Int) : List Int :=
  start :: g.vertices.flatMap (fun p => p.1 :: p.2)

/-- The `for len(queue) > 0` loop of Go `BFS` (graph.go lines 78-92), with
fuel; `none` means the fuel ran out (never happens with `bfsFuel`). -/
def bfsLoop (g : Graph) : Nat → List Int → List Int → List Int → Option (List Int)
  | 0, _, _, _ => none
  | fuel + 1, queue, visited, result =>
    match queue with
    | [] => some result
    | vertex :: rest =>
      let s := enqueueLoop (g.getAdj vertex) rest visited
      bfsLoop g fuel s.1 s.2 (result ++ [vertex])

/-- Fuel bound for `BFS`: the loop measure `2·|unvisited| + |queue|` starts
below this and strictly decreases. -/
def bfsFuel (g : Graph) (start : Int) : Nat :=
  2 * (univList g start).length + 2

/-- Go `BFS` (graph.go lines 67-95): start marked visited and enqueued. -/
def Graph.BFS (g : Graph) (start : Int) : Option (List Int) :=
  bfsLoop g (bfsFuel g start) [start] [start] []

mutual
/-- Go `dfsUtil` (graph.go lines 109-121): mark and record `vertex`, then
recurse into unvisited neighbours.  The `visited` map and `result` slice are
threaded as state; fuel bounds the recursion depth. -/
def dfsUtil (g : Graph) (fuel : Nat) (vertex : Int) (visited result : List Int) :
    Option (List Int × List Int) :=
  match fuel with
  | 0 => none
  | fuel + 1 =>
    dfsNeighbors g fuel (g.getAdj vertex) (visited ++ [vertex]) (result ++ [vertex])
termination_by (fuel, 0)

/-- The `for _, neighbor := range g.vertices[vertex]` loop of `dfsUtil`. -/
def dfsNeighbors (g : Graph) (fuel : Nat) (ns : List Int)
    (visited result : List Int) : Option (List Int × List Int) :=
  match ns with
  | [] => some (visited, result)
  | n :: rest =>
    if n ∈ visited then dfsNeighbors g fuel rest visited result
    else
      match dfsUtil g fuel n visited result with
      | none => none
      | some (v', r') => dfsNeighbors g fuel rest v' r'
termination_by (fuel, ns.length + 1)
end

/-- Fuel bound for `DFS`: the recursion depth is at most the number of
distinct vertices. -/
def dfsFuel (g : Graph) (start : Int) : Nat :=
  (univList g start).length + 1

/-- Go `DFS` (graph.go lines 100-105). -/
def Graph.DFS (g : Graph) (start : Int) : Option (List Int) :=
  (dfsUtil g (dfsFuel g start) start [] []).map (fun st => st.2)

theorem assocFind_mem_flatMap :
    ∀ (l : List (Int × List Int)) (v : Int) (vs : List Int),
    assocFind l v = some vs → ∀ w ∈ vs, w ∈ l.flatMap (fun p => p.1 :: p.2) := by
  intro l
  induction l with
  | nil => intro v vs h; simp [assocFind] at h
  | cons p rest ih =>
    intro v vs h w hw
    match p with
    | (k, us) =>
      rw [assocFind] at h
      by_cases hk : k = v
      · rw [if_pos hk] at h
        injection h with h
        subst h
        simp only [List.flatMap_cons, List.mem_append, List.mem_cons]
        exact Or.inl (Or.inr hw)
      · rw [if_neg hk] at h
        simp only [List.flatMap_cons, List.mem_append]
        exact Or.inr (ih v vs h w hw)

theorem getAdj_subset_univ (g : Graph) (start : Int) :
    ∀ v : Int, ∀ w ∈ g.getAdj v, w ∈ univList g start := by
  intro v w hw
  rw [Graph.getAdj] at hw
  cases hfind : assocFind g.vertices v with
  | none =>
    rw [hfind] at hw
    simp at hw
  | some vs =>
    rw [hfind] at hw
    simp only [Option.getD_some] at hw
    rw [univList, List.mem_cons]
    exact Or.inr (assocFind_mem_flatMap g.vertices v vs hfind w hw)

theorem start_mem_univ (g : Graph) (start : Int) : start ∈ univList g start := by
  rw [univList]
  exact List.mem_cons_self _ _

theorem enqueueLoop_spec (ns : List Int) :
    ∀ (queue visited : List Int),
    ∃ new : List Int,
      (enqueueLoop ns queue visited).1 = queue ++ new ∧
      (enqueueLoop ns queue visited).2 = visited ++ new ∧
      new.Nodup ∧
      (∀ w ∈ new, w ∈ ns ∧ w ∉ visited) ∧
      (∀ w ∈ ns, w ∈ visited ∨ w ∈ new) := by
  induction ns with
  | nil =>
    intro queue visited
    exact ⟨[], by simp [enqueueLoop], by simp [enqueueLoop], by simp, by simp, by simp⟩
  | cons n rest ih =>
    intro queue visited
    rw [enqueueLoop]
    by_cases hn : n ∈ visited
    · rw [if_pos hn]
      obtain ⟨new, h1, h2, h3, h4, h5⟩ := ih queue visited
      refine ⟨new, h1, h2, h3, ?_, ?_⟩
      · intro w hw
        exact ⟨List.mem_cons_of_mem n (h4 w hw).1, (h4 w hw).2⟩
      · intro w hw
        rcases List.mem_cons.mp hw with rfl | hw
        · exact Or.inl hn
        · exact h5 w hw
    · rw [if_neg hn]
      obtain ⟨new, h1, h2, h3, h4, h5⟩ := ih (queue ++ [n]) (visited ++ [n])
      refine ⟨n :: new, ?_, ?_, ?_, ?_, ?_⟩
      · rw [h1]
        simp
      · rw [h2]
        simp
      · rw [List.nodup_cons]
        refine ⟨fun hmem => ?_, h3⟩
        have := (h4 n hmem).2
        simp at this
      · intro w hw
        rcases List.mem_cons.mp hw with rfl | hw
        · exact ⟨List.mem_cons_self _ _, hn⟩
        · refine ⟨List.mem_cons_of_mem n (h4 w hw).1, fun hcon => ?_⟩
          exact (h4 w hw).2 (by simp [hcon])
      · intro w hw
        rcases List.mem_cons.mp hw with rfl | hw
        · exact Or.inr (List.mem_cons_self _ _)
        · rcases h5 w hw with hv | hnew
          · rw [List.mem_append] at hv
            rcases hv with hv | hv
            · exact Or.inl hv
            · simp only [List.mem_singleton] at hv
              exact Or.inr (by simp [hv])
          · exact Or.inr (List.mem_cons_of_mem n hnew)

theorem bfsLoop_correct (g : Graph) (start : Int) :
    ∀ (fuel : Nat) (queue visited result : List Int),
    (result ++ queue).Nodup →
    (∀ v : Int, v ∈ visited ↔ v ∈ result ∨ v ∈ queue) →
    (∀ v ∈ visited, Reachable g start v) →
    (∀ v ∈ result, ∀ w ∈ g.getAdj v, w ∈ visited) →
    (∀ v ∈ visited, v ∈ univList g start) →
    2 * ((univList g start).toFinset \ visited.toFinset).card + queue.length < fuel →
    ∃ res, bfsLoop g fuel queue visited result = some res ∧
      res.Nodup ∧
      (∀ v ∈ visited, v ∈ res) ∧
      (∀ v ∈ res, Reachable g start v) ∧
      (∀ v ∈ res, ∀ w ∈ g.getAdj v, w ∈ res) := by
  intro fuel
  induction fuel with
  | zero =>
    intro queue visited result _ _ _ _ _ hm
    omega
  | succ fuel ih =>
    intro queue visited result hnodup hiff hreach hclosed huniv hm
    match queue with
    | [] =>
      rw [bfsLoop]
      refine ⟨result, rfl, by simpa using hnodup, ?_, ?_, ?_⟩
      · intro v hv
        rcases (hiff v).mp hv with hv | hv
        · exact hv
        · simp at hv
      · intro v hv
        exact hreach v ((hiff v).mpr (Or.inl hv))
      · intro v hv w hw
        have := hclosed v hv w hw
        rcases (hiff w).mp this with h | h
        · exact h
        · simp at h
    | vertex :: rest =>
      rw [bfsLoop]
      obtain ⟨new, he1, he2, henodup, hefresh, hecover⟩ :=
        enqueueLoop_spec (g.getAdj vertex) rest visited
      rw [he1, he2]
      have hvqmem : vertex ∈ visited := (hiff vertex).mpr (Or.inr (by simp))
      have hvreach : Reachable g start vertex := hreach vertex hvqmem
      -- all new vertices are adjacency values, hence in univ and fresh
      have hnew_univ : ∀ w ∈ new, w ∈ univList g start := by
        intro w hw
        exact getAdj_subset_univ g start vertex w (hefresh w hw).1
      have hnew_fresh : ∀ w ∈ new, w ∉ visited := fun w hw => (hefresh w hw).2
      -- Nodup of the new combined state
      have hnodup' : ((result ++ [vertex]) ++ (rest ++ new)).Nodup := by
        have h0 : (result ++ vertex :: rest).Nodup := hnodup
        have h1 : ((result ++ [vertex]) ++ rest).Nodup := by
          simpa using h0
        rw [List.nodup_append] at h1
        obtain ⟨ha, hb, hdisj⟩ := h1
        refine List.Nodup.append ha (List.Nodup.append hb henodup ?_) ?_
        · intro a haa hbb
          exact hnew_fresh a hbb ((hiff a).mpr (Or.inr (by simp [haa])))
        · intro a haa hbb
          rw [List.mem_append] at hbb
          rcases hbb with hbb | hbb
          · exact hdisj haa hbb
          · have hav : a ∈ visited := by
              rcases List.mem_append.mp haa with h | h
              · exact (hiff a).mpr (Or.inl h)
              · simp only [List.mem_singleton] at h
                rw [h]
                exact hvqmem
            exact hnew_fresh a hbb hav
      have hiff' : ∀ v : Int, v ∈ visited ++ new ↔
          v ∈ result ++ [vertex] ∨ v ∈ rest ++ new := by
        intro v
        simp only [List.mem_append, List.mem_singleton]
        constructor
        · intro h
          rcases h with h | h
          · rcases (hiff v).mp h with h | h
            · exact Or.inl (Or.inl h)
            · rcases List.mem_cons.mp h with h | h
              · exact Or.inl (Or.inr h)
              · exact Or.inr (Or.inl h)
          · exact Or.inr (Or.inr h)
        · intro h
          rcases h with (h | h) | (h | h)
          · exact Or.inl ((hiff v).mpr (Or.inl h))
          · exact Or.inl (by rw [h]; exact hvqmem)
          · exact Or.inl ((hiff v).mpr (Or.inr (List.mem_cons_of_mem _ h)))
          · exact Or.inr h
      have hreach' : ∀ v ∈ visited ++ new, Reachable g start v := by
        intro v hv
        rcases List.mem_append.mp hv with hv | hv
        · exact hreach v hv
        · exact Relation.ReflTransGen.tail hvreach (hefresh v hv).1
      have hclosed' : ∀ v ∈ result ++ [vertex], ∀ w ∈ g.getAdj v,
          w ∈ visited ++ new := by
        intro v hv w hw
        rcases List.mem_append.mp hv with hv | hv
        · exact List.mem_append_left _ (hclosed v hv w hw)
        · simp only [List.mem_singleton] at hv
          subst hv
          rcases hecover w hw with h | h
          · exact List.mem_append_left _ h
          · exact List.mem_append_right _ h
      have huniv' : ∀ v ∈ visited ++ new, v ∈ univList g start := by
        intro v hv
        rcases List.mem_append.mp hv with hv | hv
        · exact huniv v hv
        · exact hnew_univ v hv
      -- measure accounting
      have hmeasure : 2 * ((univList g start).toFinset \ (visited ++ new).toFinset).card
          + (rest ++ new).length < fuel := by
        have hsub : new.toFinset ⊆ (univList g start).toFinset \ visited.toFinset := by
          intro a ha
          rw [List.mem_toFinset] at ha
          rw [Finset.mem_sdiff, List.mem_toFinset, List.mem_toFinset]
          exact ⟨hnew_univ a ha, hnew_fresh a ha⟩
        have hcard_new : new.toFinset.card = new.length := by
          rw [List.toFinset_card_of_nodup henodup]
        have heq : (univList g start).toFinset \ (visited ++ new).toFinset
            = ((univList g start).toFinset \ visited.toFinset) \ new.toFinset := by
          rw [List.toFinset_append]
          ext a
          simp only [Finset.mem_sdiff, Finset.mem_union]
          tauto
        have hcard : (((univList g start).toFinset \ visited.toFinset) \ new.toFinset).card
            = ((univList g start).toFinset \ visited.toFinset).card - new.toFinset.card :=
          Finset.card_sdiff hsub
        rw [heq, hcard, hcard_new]
        have hle : new.length ≤ ((univList g start).toFinset \ visited.toFinset).card := by
          rw [← hcard_new]
          exact Finset.card_le_card hsub
        simp only [List.length_append]
        simp only [List.length_cons] at hm
        omega
      obtain ⟨res, hres, hrnodup, hrsub, hrreach, hrclosed⟩ :=
        ih (rest ++ new) (visited ++ new) (result ++ [vertex])
          hnodup' hiff' hreach' hclosed' huniv' hmeasure
      refine ⟨res, hres, hrnodup, ?_, hrreach, hrclosed⟩
      intro v hv
      exact hrsub v (List.mem_append_left _ hv)

theorem BFS_correct (g : Graph) (start : Int) :
    ∃ res, g.BFS start = some res ∧ res.Nodup ∧
      (∀ v : Int, v ∈ res ↔ Reachable g start v) := by
  have hmeas : 2 * ((univList g start).toFinset \ ([start] : List Int).toFinset).card
      + ([start] : List Int).length < bfsFuel g start := by
    have h1 : ((univList g start).toFinset \ ([start] : List Int).toFinset).card
        ≤ (univList g start).toFinset.card := Finset.card_le_card Finset.sdiff_subset
    have h2 : (univList g start).toFinset.card ≤ (univList g start).length :=
      List.toFinset_card_le _
    rw [bfsFuel]
    simp only [List.length_singleton]
    omega
  obtain ⟨res, hres, hnodup, hsub, hreach, hclosed⟩ :=
    bfsLoop_correct g start (bfsFuel g start) [start] [start] []
      (by simp)
      (by intro v; simp)
      (by
        intro v hv
        simp only [List.mem_singleton] at hv
        rw [hv]
        exact Relation.ReflTransGen.refl)
      (by intro v hv; simp at hv)
      (by
        intro v hv
        simp only [List.mem_singleton] at hv
        rw [hv]
        exact start_mem_univ g start)
      hmeas
  refine ⟨res, hres, hnodup, fun v => ⟨hreach v, ?_⟩⟩
  intro hre
  induction hre with
  | refl => exact hsub start (by simp)
  | tail h1 h2 ihv => exact hclosed _ ihv _ h2

/-- Joint specification of `dfsUtil` and its neighbour loop, by induction on
the fuel.  The `visited` map and `result` slice receive exactly the same
elements, so both lemmas run the functions with two copies of the same list.
In the loop part, `pre` is the visited set of the enclosing `dfsUtil` call
and `vertex` its vertex; every visited vertex outside `pre` either is
`vertex` (whose neighbour loop is still running) or has all its neighbours
visited. -/
theorem dfs_joint (g : Graph) (start : Int) :
    ∀ fuel : Nat,
    (∀ (vertex : Int) (visited : List Int),
      visited.Nodup → vertex ∉ visited →
      (∀ x ∈ visited, x ∈ univList g start) → vertex ∈ univList g start →
      ((univList g start).toFinset \ visited.toFinset).card < fuel →
      ∃ v', dfsUtil g fuel vertex visited visited = some (v', v') ∧
        v'.Nodup ∧ (∀ x ∈ visited, x ∈ v') ∧ vertex ∈ v' ∧
        (∀ x ∈ v', x ∈ visited ∨ (∀ w ∈ g.getAdj x, w ∈ v')) ∧
        (∀ x ∈ v', x ∈ visited ∨ Relation.ReflTransGen (adjRel g) vertex x) ∧
        (∀ x ∈ v', x ∈ univList g start)) ∧
    (∀ (ns visited pre : List Int) (vertex : Int),
      visited.Nodup →
      (∀ x ∈ visited, x ∈ univList g start) →
      (∀ n ∈ ns, n ∈ g.getAdj vertex) →
      ((univList g start).toFinset \ visited.toFinset).card < fuel →
      (∀ x ∈ visited, x ∈ pre ∨ x = vertex ∨ (∀ w ∈ g.getAdj x, w ∈ visited)) →
      (∀ x ∈ visited, x ∈ pre ∨ Relation.ReflTransGen (adjRel g) vertex x) →
      ∃ v', dfsNeighbors g fuel ns visited visited = some (v', v') ∧
        v'.Nodup ∧ (∀ x ∈ visited, x ∈ v') ∧ (∀ n ∈ ns, n ∈ v') ∧
        (∀ x ∈ v', x ∈ pre ∨ x = vertex ∨ (∀ w ∈ g.getAdj x, w ∈ v')) ∧
        (∀ x ∈ v', x ∈ pre ∨ Relation.ReflTransGen (adjRel g) vertex x) ∧
        (∀ x ∈ v', x ∈ univList g start)) := by
  intro fuel
  induction fuel using Nat.strong_induction_on with
  | _ fuel ih =>
  cases fuel with
  | zero =>
    constructor
    · intro vertex visited _ _ _ _ hcard
      omega
    · intro ns visited pre vertex _ _ _ hcard _ _
      omega
  | succ m =>
    have hU : ∀ (vertex : Int) (visited : List Int),
        visited.Nodup → vertex ∉ visited →
        (∀ x ∈ visited, x ∈ univList g start) → vertex ∈ univList g start →
        ((univList g start).toFinset \ visited.toFinset).card < m + 1 →
        ∃ v', dfsUtil g (m + 1) vertex visited visited = some (v', v') ∧
          v'.Nodup ∧ (∀ x ∈ visited, x ∈ v') ∧ vertex ∈ v' ∧
          (∀ x ∈ v', x ∈ visited ∨ (∀ w ∈ g.getAdj x, w ∈ v')) ∧
          (∀ x ∈ v', x ∈ visited ∨ Relation.ReflTransGen (adjRel g) vertex x) ∧
          (∀ x ∈ v', x ∈ univList g start) := by
      intro vertex visited hnd hnin huniv hvuniv hcard
      rw [dfsUtil]
      have hnd1 : (visited ++ [vertex]).Nodup := by
        rw [List.nodup_append]
        refine ⟨hnd, List.nodup_singleton _, ?_⟩
        intro a ha hb
        simp only [List.mem_singleton] at hb
        subst hb
        exact hnin ha
      have huniv1 : ∀ x ∈ visited ++ [vertex], x ∈ univList g start := by
        intro x hx
        rcases List.mem_append.mp hx with hx | hx
        · exact huniv x hx
        · simp only [List.mem_singleton] at hx
          rw [hx]
          exact hvuniv
      have hcard1 : ((univList g start).toFinset \ (visited ++ [vertex]).toFinset).card < m := by
        have heq : (univList g start).toFinset \ (visited ++ [vertex]).toFinset
            = ((univList g start).toFinset \ visited.toFinset) \ {vertex} := by
          rw [List.toFinset_append]
          ext a
          simp only [Finset.mem_sdiff, Finset.mem_union, List.toFinset_cons,
            List.toFinset_nil, insert_emptyc_eq, Finset.mem_singleton,
            List.mem_toFinset]
          tauto
        have hsub : ({vertex} : Finset Int) ⊆
            (univList g start).toFinset \ visited.toFinset := by
          intro a ha
          rw [Finset.mem_singleton] at ha
          subst ha
          rw [Finset.mem_sdiff, List.mem_toFinset, List.mem_toFinset]
          exact ⟨hvuniv, hnin⟩
        have hc := Finset.card_sdiff hsub
        rw [heq, hc, Finset.card_singleton]
        have hpos : 0 < ((univList g start).toFinset \ visited.toFinset).card := by
          rw [Finset.card_pos]
          exact ⟨vertex, hsub (Finset.mem_singleton_self vertex)⟩
        omega
      obtain ⟨v', heq, hnd', hsub', hns', hclos', hsound', huniv'⟩ :=
        (ih m (by omega)).2 (g.getAdj vertex) (visited ++ [vertex]) visited vertex
          hnd1 huniv1 (fun n hn => hn) hcard1
          (by
            intro x hx
            rcases List.mem_append.mp hx with hx | hx
            · exact Or.inl hx
            · simp only [List.mem_singleton] at hx
              exact Or.inr (Or.inl hx))
          (by
            intro x hx
            rcases List.mem_append.mp hx with hx | hx
            · exact Or.inl hx
            · simp only [List.mem_singleton] at hx
              rw [hx]
              exact Or.inr Relation.ReflTransGen.refl)
      refine ⟨v', heq, hnd',
        fun x hx => hsub' x (List.mem_append_left _ hx),
        hsub' vertex (List.mem_append_right _ (by simp)), ?_, ?_, huniv'⟩
      · intro x hx
        rcases hclos' x hx with h | h | h
        · exact Or.inl h
        · subst h
          exact Or.inr (fun w hw => hns' w hw)
        · exact Or.inr h
      · intro x hx
        exact hsound' x hx
    refine ⟨hU, ?_⟩
    intro ns
    induction ns with
    | nil =>
      intro visited pre vertex hnd huniv hns hcard hR hS
      rw [dfsNeighbors]
      exact ⟨visited, rfl, hnd, fun x hx => hx, by simp, hR, hS, huniv⟩
    | cons n rest ihns =>
      intro visited pre vertex hnd huniv hns hcard hR hS
      rw [dfsNeighbors]
      by_cases hmem : n ∈ visited
      · rw [if_pos hmem]
        obtain ⟨v', heq, hnd', hsub', hns', hclos', hsound', huniv'⟩ :=
          ihns visited pre vertex hnd huniv
            (fun x hx => hns x (List.mem_cons_of_mem n hx)) hcard hR hS
        refine ⟨v', heq, hnd', hsub', ?_, hclos', hsound', huniv'⟩
        intro x hx
        rcases List.mem_cons.mp hx with rfl | hx
        · exact hsub' x hmem
        · exact hns' x hx
      · rw [if_neg hmem]
        obtain ⟨v1, heq1, hnd1, hsub1, hvm1, hclos1, hsound1, huniv1⟩ :=
          hU n visited hnd hmem huniv
            (getAdj_subset_univ g start vertex n (hns n (List.mem_cons_self n rest)))
            hcard
        rw [heq1]
        have hcard1 : ((univList g start).toFinset \ v1.toFinset).card < m + 1 := by
          have hsubF : visited.toFinset ⊆ v1.toFinset := by
            intro a ha
            rw [List.mem_toFinset] at ha ⊢
            exact hsub1 a ha
          have : (univList g start).toFinset \ v1.toFinset
              ⊆ (univList g start).toFinset \ visited.toFinset :=
            Finset.sdiff_subset_sdiff (le_refl _) hsubF
          have := Finset.card_le_card this
          omega
        obtain ⟨v2, heq2, hnd2, hsub2, hns2, hclos2, hsound2, huniv2⟩ :=
          ihns v1 pre vertex hnd1 huniv1
            (fun x hx => hns x (List.mem_cons_of_mem n hx)) hcard1
            (by
              intro x hx
              rcases hclos1 x hx with h | h
              · rcases hR x h with h' | h' | h'
                · exact Or.inl h'
                · exact Or.inr (Or.inl h')
                · exact Or.inr (Or.inr (fun w hw => hsub1 w (h' w hw)))
              · exact Or.inr (Or.inr h))
            (by
              intro x hx
              rcases hsound1 x hx with h | h
              · exact hS x h
              · refine Or.inr (Relation.ReflTransGen.head ?_ h)
                exact hns n (List.mem_cons_self n rest))
        refine ⟨v2, heq2, hnd2, fun x hx => hsub2 x (hsub1 x hx), ?_,
          hclos2, hsound2, huniv2⟩
        intro x hx
        rcases List.mem_cons.mp hx with rfl | hx
        · exact hsub2 x hvm1
        · exact hns2 x hx

theorem DFS_correct (g : Graph) (start : Int) :
    ∃ res, g.DFS start = some res ∧ res.Nodup ∧
      (∀ v : Int, v ∈ res ↔ Reachable g start v) := by
  have hcard : ((univList g start).toFinset \ ([] : List Int).toFinset).card
      < dfsFuel g start := by
    have h2 : (univList g start).toFinset.card ≤ (univList g start).length :=
      List.toFinset_card_le _
    rw [dfsFuel]
    simp only [List.toFinset_nil, Finset.sdiff_empty]
    omega
  obtain ⟨v', heq, hnd, _, hvmem, hclos, hsound, _⟩ :=
    (dfs_joint g start (dfsFuel g start)).1 start [] (by simp) (by simp)
      (by simp) (start_mem_univ g start) hcard
  refine ⟨v', ?_, hnd, fun v => ⟨?_, ?_⟩⟩
  · rw [Graph.DFS, heq]
    rfl
  · intro hv
    rcases hsound v hv with h | h
    · simp at h
    · exact h
  · intro hre
    induction hre with
    | refl => exact hvmem
    | tail h1 h2 ihv =>
      rcases hclos _ ihv with h | h
      · simp at h
      · exact h _ h2

/-- **C6.** For every graph built by `AddVertex`/`AddEdge` calls (where
`AddEdge` inserts both directions) and every start vertex, `BFS(start)` and
`DFS(start)` each return a list in which every vertex reachable from `start`
appears exactly once and no unreachable vertex appears. -/
theorem claim_c6_bfs_dfs_visit_reachable_once (ops : List GraphOp) (start : Int) :
    (∃ res, (buildGraph ops).BFS start = some res ∧
      (∀ v : Int, Reachable (buildGraph ops) start v → res.count v = 1) ∧
      (∀ v : Int, ¬Reachable (buildGraph ops) start v → res.count v = 0)) ∧
    (∃ res, (buildGraph ops).DFS start = some res ∧
      (∀ v : Int, Reachable (buildGraph ops) start v → res.count v = 1) ∧
      (∀ v : Int, ¬Reachable (buildGraph ops) start v → res.count v = 0)) := by
  constructor
  · obtain ⟨res, hres, hnd, hiff⟩ := BFS_correct (buildGraph ops) start
    refine ⟨res, hres, ?_, ?_⟩
    · intro v hv
      exact List.count_eq_one_of_mem hnd ((hiff v).mpr hv)
    · intro v hv
      exact List.count_eq_zero.mpr (fun hmem => hv ((hiff v).mp hmem))
  · obtain ⟨res, hres, hnd, hiff⟩ := DFS_correct (buildGraph ops) start
    refine ⟨res, hres, ?_, ?_⟩
    · intro v hv
      exact List.count_eq_one_of_mem hnd ((hiff v).mpr hv)
    · intro v hv
      exact List.count_eq_zero.mpr (fun hmem => hv ((hiff v).mp hmem))

end GoBasic
